import Mathlib

/-!
Shallow embedding of `src/lru_cache.py`: a fixed-capacity LRU cache built
from a key index (Python `dict`, here an association list) and a doubly
linked recency list with head/tail sentinels (Python `Node` objects linked
by references, here a store of nodes addressed by numeric ids).
-/

namespace LRU

/-- One node of the doubly linked list (`class Node` in `lru_cache.py`).
Python initializes `prev` and `next` to `None`; on every reachable execution
those fields are written before they are ever read, so the model stores plain
ids and uses `0` as the arbitrary initial value. -/
structure NodeData where
  key : Int
  value : Int
  prev : Nat
  next : Nat
deriving DecidableEq, Repr

/-- The node store: Python object identity is modelled by allocating each
`Node` object at a distinct numeric id. -/
abbrev Heap := List (Nat × NodeData)

/-- Junk node returned when an id is absent from the store; never reached
from a well-formed cache state. -/
def noNode : NodeData := ⟨0, 0, 0, 0⟩

/-- Read the node at id `i`. -/
def hget : Heap → Nat → NodeData
  | [], _ => noNode
  | p :: rest, i => if p.1 = i then p.2 else hget rest i

/-- Write the node at id `i` (update in place, or allocate if absent). -/
def hset : Heap → Nat → NodeData → Heap
  | [], i, n => [(i, n)]
  | p :: rest, i, n => if p.1 = i then (i, n) :: rest else p :: hset rest i n

/-- `self.cache.get(key)` on the key index. -/
def dget : List (Int × Nat) → Int → Option Nat
  | [], _ => none
  | p :: rest, k => if p.1 = k then some p.2 else dget rest k

/-- `del self.cache[key]` on the key index (keys are unique in a dict, so
removing the first matching entry is exact). -/
def ddel : List (Int × Nat) → Int → List (Int × Nat)
  | [], _ => []
  | p :: rest, k => if p.1 = k then rest else p :: ddel rest k

/-- `self.cache[key] = node` on the key index. -/
def dset : List (Int × Nat) → Int → Nat → List (Int × Nat)
  | [], k, i => [(k, i)]
  | p :: rest, k, i => if p.1 = k then (k, i) :: rest else p :: dset rest k i

/-- Id of the dummy head sentinel (`self.head`). -/
def headId : Nat := 0

/-- Id of the dummy tail sentinel (`self.tail`). -/
def tailId : Nat := 1

/-- The whole cache state: `self.capacity`, the node store, `self.cache`,
and the next fresh node id (allocation counter). -/
structure Cache where
  capacity : Int
  heap : Heap
  dict : List (Int × Nat)
  fresh : Nat
deriving DecidableEq, Repr

/-- The error raised by the constructor (`ValueError` in Python, the
`InvalidArgument` kind of the design). -/
inductive CacheError where
  | invalidArgument (msg : String)
deriving DecidableEq, Repr

/-- `LRUCache.__init__`: validate capacity, then create the two sentinels
with `head.next = tail` and `tail.prev = head`, and an empty key index. -/
def mkCache (capacity : Int) : Except CacheError Cache :=
  if capacity ≤ 0 then
    .error (.invalidArgument "Capacity must be positive")
  else
    .ok { capacity := capacity
        , heap := [(headId, { key := 0, value := 0, prev := 0, next := tailId }),
                   (tailId, { key := 0, value := 0, prev := headId, next := 0 })]
        , dict := []
        , fresh := 2 }

/-- `LRUCache._add_node`: insert node `i` right after the head sentinel.
Each Python statement becomes one store update, read at its program point:
`node.prev = self.head`; `node.next = self.head.next`;
`self.head.next.prev = node`; `self.head.next = node`. -/
def _add_node (s : Cache) (i : Nat) : Cache :=
  let h1 := hset s.heap i { hget s.heap i with prev := headId }
  let h2 := hset h1 i { hget h1 i with next := (hget h1 headId).next }
  let j := (hget h2 headId).next
  let h3 := hset h2 j { hget h2 j with prev := i }
  let h4 := hset h3 headId { hget h3 headId with next := i }
  { s with heap := h4 }

/-- `LRUCache._remove_node`: unlink node `i` by relinking its neighbours:
`prev_node.next = next_node`; `next_node.prev = prev_node`. -/
def _remove_node (s : Cache) (i : Nat) : Cache :=
  let prevId := (hget s.heap i).prev
  let nextId := (hget s.heap i).next
  let h1 := hset s.heap prevId { hget s.heap prevId with next := nextId }
  let h2 := hset h1 nextId { hget h1 nextId with prev := prevId }
  { s with heap := h2 }

/-- `LRUCache._move_to_head`: remove then re-add at the head. -/
def _move_to_head (s : Cache) (i : Nat) : Cache :=
  _add_node (_remove_node s i) i

/-- `LRUCache._pop_tail`: unlink and return `self.tail.prev`. -/
def _pop_tail (s : Cache) : Nat × Cache :=
  let lastId := (hget s.heap tailId).prev
  (lastId, _remove_node s lastId)

/-- `LRUCache.get`: `-1` on a miss; on a hit, move the node to the head and
return its value. -/
def get (s : Cache) (k : Int) : Int × Cache :=
  match dget s.dict k with
  | none => (-1, s)
  | some i =>
    let s1 := _move_to_head s i
    ((hget s1.heap i).value, s1)

/-- `LRUCache.put`: on a new key, create a node, evict the tail node first
when `len(self.cache) >= self.capacity`, then register the node in the key
index and link it at the head; on an existing key, update the value in place
and move the node to the head. -/
def put (s : Cache) (k v : Int) : Cache :=
  match dget s.dict k with
  | none =>
    let nid := s.fresh
    let s0 : Cache := { s with
                        heap := hset s.heap nid { key := k, value := v, prev := 0, next := 0 }
                      , fresh := s.fresh + 1 }
    let s1 :=
      if (s0.dict.length : Int) ≥ s0.capacity then
        let pt := _pop_tail s0
        { pt.2 with dict := ddel pt.2.dict (hget pt.2.heap pt.1).key }
      else s0
    let s2 := { s1 with dict := dset s1.dict k nid }
    _add_node s2 nid
  | some i =>
    let s3 : Cache := { s with heap := hset s.heap i { hget s.heap i with value := v } }
    _move_to_head s3 i

/-- `len(self.cache)`: the number of live entries. -/
def size (s : Cache) : Nat := s.dict.length

/-- A public operation on the cache. -/
inductive Op where
  | get (k : Int)
  | put (k v : Int)
deriving DecidableEq, Repr

/-- Apply one public operation, keeping only the state. -/
def step (s : Cache) (op : Op) : Cache :=
  match op with
  | .get k => (get s k).2
  | .put k v => put s k v

/-- Apply a sequence of public operations. -/
def runOps (s : Cache) (ops : List Op) : Cache := ops.foldl step s

/-- Run a sequence of operations, collecting the value returned by each
`get` (mirrors the driver in `test_lru_cache`). -/
def runGets (s : Cache) : List Op → List Int
  | [] => []
  | .get k :: ops => (get s k).1 :: runGets (get s k).2 ops
  | .put k v :: ops => runGets (put s k v) ops

/-- A state produced by a successful construction followed by any sequence
of public operations. -/
def Reachable (s : Cache) : Prop :=
  ∃ (cap : Int) (s0 : Cache) (ops : List Op), mkCache cap = .ok s0 ∧ s = runOps s0 ops

/-- `a`'s stored successor is `b` and `b`'s stored predecessor is `a`. -/
def adj (h : Heap) (a b : Nat) : Prop := (hget h a).next = b ∧ (hget h b).prev = a

/-- Walk the `next` links starting at `i` until the tail sentinel, with fuel. -/
def chainFrom (h : Heap) : Nat → Nat → List Nat
  | 0, _ => []
  | fuel + 1, i => if i = tailId then [] else i :: chainFrom h fuel (hget h i).next

/-- The ids of the live nodes in recency order, most recent first, read off
the linked list from the head sentinel. -/
def chainOf (s : Cache) : List Nat :=
  chainFrom s.heap s.fresh (hget s.heap headId).next

/-- The keys of the live nodes in recency order, most recent first. -/
def chainKeys (s : Cache) : List Int := (chainOf s).map (fun i => (hget s.heap i).key)

/-- Value observed for key `k`: the stored value of the node the key index
points to, if any. -/
def lookupVal (s : Cache) (k : Int) : Option Int :=
  (dget s.dict k).map (fun i => (hget s.heap i).value)

/-- Well-formedness of a cache state with respect to an explicit recency
chain `c` (ids of the live nodes, most recent first): the sentinels and the
chain form one consistently linked list, ids are distinct allocated ids,
keys are distinct, and the key index holds exactly one entry per chain node,
pointing at it. -/
structure InvC (s : Cache) (c : List Nat) : Prop where
  capPos : 0 < s.capacity
  freshLB : 2 ≤ s.fresh
  idsOK : ∀ i ∈ c, 2 ≤ i ∧ i < s.fresh
  ndC : c.Nodup
  keysND : (c.map (fun i => (hget s.heap i).key)).Nodup
  links : List.Chain' (adj s.heap) (headId :: c ++ [tailId])
  dictPerm : s.dict.Perm (c.map (fun i => ((hget s.heap i).key, i)))
  sizeLE : (c.length : Int) ≤ s.capacity

end LRU

namespace LRU

/-- The empty capacity-2 cache produced by `mkCache 2`, a concrete fixture
for the test scenarios of the source's driver. -/
def cache2 : Cache :=
  { capacity := 2
  , heap := [(headId, { key := 0, value := 0, prev := 0, next := tailId }),
             (tailId, { key := 0, value := 0, prev := headId, next := 0 })]
  , dict := []
  , fresh := 2 }

/-- The empty capacity-1 cache produced by `mkCache 1`. -/
def cache1 : Cache :=
  { capacity := 1
  , heap := [(headId, { key := 0, value := 0, prev := 0, next := tailId }),
             (tailId, { key := 0, value := 0, prev := headId, next := 0 })]
  , dict := []
  , fresh := 2 }

theorem hget_hset_self (h : Heap) (i : Nat) (n : NodeData) : hget (hset h i n) i = n := by
  induction h with
  | nil => simp [hset, hget]
  | cons p rest ih =>
    by_cases hp : p.1 = i
    · simp [hset, hget, hp]
    · simp [hset, hget, hp, ih]

theorem hget_hset_ne {h : Heap} {i j : Nat} (n : NodeData) (hij : j ≠ i) :
    hget (hset h i n) j = hget h j := by
  induction h with
  | nil => simp [hset, hget, Ne.symm hij]
  | cons p rest ih =>
    by_cases hp : p.1 = i
    · have hpj : ¬ p.1 = j := by rw [hp]; exact Ne.symm hij
      simp [hset, hget, hp, Ne.symm hij, hpj]
    · by_cases hq : p.1 = j
      · simp [hset, hget, hp, hq, hij]
      · simp [hset, hget, hp, hq, ih]

theorem dget_dset_self (d : List (Int × Nat)) (k : Int) (i : Nat) :
    dget (dset d k i) k = some i := by
  induction d with
  | nil => simp [dset, dget]
  | cons p rest ih =>
    by_cases hp : p.1 = k
    · simp [dset, dget, hp]
    · simp [dset, dget, hp, ih]

theorem dget_dset_ne {d : List (Int × Nat)} {k k' : Int} (i : Nat) (hkk : k' ≠ k) :
    dget (dset d k i) k' = dget d k' := by
  induction d with
  | nil => simp [dset, dget, Ne.symm hkk]
  | cons p rest ih =>
    by_cases hp : p.1 = k
    · have hpj : ¬ p.1 = k' := by rw [hp]; exact Ne.symm hkk
      simp [dset, dget, hp, Ne.symm hkk, hpj]
    · by_cases hq : p.1 = k'
      · simp [dset, dget, hp, hq, hkk]
      · simp [dset, dget, hp, hq, ih]

theorem dget_eq_none_iff {d : List (Int × Nat)} {k : Int} :
    dget d k = none ↔ k ∉ d.map Prod.fst := by
  induction d with
  | nil => simp [dget]
  | cons p rest ih =>
    by_cases hp : p.1 = k
    · simp [dget, hp]
    · simp [dget, hp, ih, Ne.symm hp]

theorem dget_ddel_ne {d : List (Int × Nat)} {k k' : Int} (hkk : k' ≠ k) :
    dget (ddel d k) k' = dget d k' := by
  induction d with
  | nil => rfl
  | cons p rest ih =>
    by_cases hp : p.1 = k
    · have hpj : ¬ p.1 = k' := by rw [hp]; exact Ne.symm hkk
      simp [ddel, dget, hp, hpj, Ne.symm hkk]
    · by_cases hq : p.1 = k'
      · simp [ddel, dget, hp, hq, hkk]
      · simp [ddel, dget, hp, hq, ih]

theorem dget_ddel_self {d : List (Int × Nat)} {k : Int}
    (nd : (d.map Prod.fst).Nodup) : dget (ddel d k) k = none := by
  induction d with
  | nil => rfl
  | cons p rest ih =>
    simp only [List.map_cons, List.nodup_cons] at nd
    by_cases hp : p.1 = k
    · subst hp
      simpa [ddel, dget_eq_none_iff] using nd.1
    · simp [ddel, dget, hp, ih nd.2]

theorem dget_some_of_mem {d : List (Int × Nat)} {k : Int} {i : Nat}
    (nd : (d.map Prod.fst).Nodup) (hm : (k, i) ∈ d) : dget d k = some i := by
  induction d with
  | nil => simp at hm
  | cons p rest ih =>
    simp only [List.map_cons, List.nodup_cons] at nd
    rcases List.mem_cons.mp hm with h | h
    · subst h; simp [dget]
    · have hp : p.1 ≠ k := by
        intro e
        exact nd.1 (e ▸ (List.mem_map.mpr ⟨(k, i), h, rfl⟩))
      simp [dget, hp, ih nd.2 h]

theorem mem_of_dget_some {d : List (Int × Nat)} {k : Int} {i : Nat}
    (hd : dget d k = some i) : (k, i) ∈ d := by
  induction d with
  | nil => simp [dget] at hd
  | cons p rest ih =>
    by_cases hp : p.1 = k
    · simp only [dget, hp, if_pos] at hd
      have hpk : p = (k, i) := by
        have h2 : p.2 = i := by simpa using hd
        obtain ⟨p1, p2⟩ := p
        simp only at hp h2
        rw [hp, h2]
      rw [hpk]
      exact List.mem_cons_self _ _
    · simp only [dget, hp, if_neg, not_false_iff] at hd
      exact List.mem_cons_of_mem _ (ih hd)

theorem ddel_eq_erase {d : List (Int × Nat)} {k : Int} {i : Nat}
    (nd : (d.map Prod.fst).Nodup) (hm : (k, i) ∈ d) :
    ddel d k = d.erase (k, i) := by
  induction d with
  | nil => rfl
  | cons p rest ih =>
    simp only [List.map_cons, List.nodup_cons] at nd
    by_cases hp : p.1 = k
    · have hpk : p = (k, i) := by
        rcases List.mem_cons.mp hm with h | h
        · exact h.symm
        · exact absurd (hp ▸ (List.mem_map.mpr ⟨(k, i), h, rfl⟩)) nd.1
      rw [hpk]
      simp [ddel, List.erase_cons_head]
    · have hpk : p ≠ (k, i) := fun e => hp (by rw [e])
      have hm' : (k, i) ∈ rest := by
        rcases List.mem_cons.mp hm with h | h
        · exact absurd h.symm hpk
        · exact h
      simp only [ddel, hp, if_neg, not_false_iff]
      rw [List.erase_cons_tail, ih nd.2 hm']
      simp [hpk]

theorem dset_eq_append {d : List (Int × Nat)} {k : Int} (i : Nat)
    (hk : k ∉ d.map Prod.fst) : dset d k i = d ++ [(k, i)] := by
  induction d with
  | nil => rfl
  | cons p rest ih =>
    simp only [List.map_cons, List.mem_cons] at hk
    push_neg at hk
    have hp : ¬ p.1 = k := fun e => hk.1 e.symm
    simp [dset, hp, ih hk.2]

end LRU

namespace LRU

theorem chain'_adj_congr {h h' : Heap} :
    ∀ {l : List Nat}, List.Chain' (adj h) l →
      (∀ x ∈ l.dropLast, (hget h' x).next = (hget h x).next) →
      (∀ x ∈ l.tail, (hget h' x).prev = (hget h x).prev) →
      List.Chain' (adj h') l := by
  intro l
  induction l with
  | nil => intro _ _ _; exact List.chain'_nil
  | cons a rest ih =>
    intro hch hnext hprev
    cases rest with
    | nil => exact List.chain'_singleton a
    | cons b rest2 =>
      rw [List.chain'_cons] at hch ⊢
      have hmema : a ∈ (a :: b :: rest2).dropLast := by
        rw [List.dropLast_cons₂]
        exact List.mem_cons_self _ _
      have hmemb : b ∈ (a :: b :: rest2).tail := List.mem_cons_self _ _
      refine ⟨⟨?_, ?_⟩, ?_⟩
      · rw [hnext a hmema]; exact hch.1.1
      · rw [hprev b hmemb]; exact hch.1.2
      · refine ih hch.2 (fun x hx => hnext x ?_) (fun x hx => hprev x ?_)
        · rw [List.dropLast_cons₂]
          exact List.mem_cons_of_mem _ hx
        · exact List.mem_cons_of_mem _ hx

/-- Every heap write performed by the list primitives keeps each node's key
and value: only link fields are assigned. -/
theorem kv_hset_link (h : Heap) (a : Nat) (m : NodeData)
    (hkey : m.key = (hget h a).key) (hval : m.value = (hget h a).value) (j : Nat) :
    (hget (hset h a m) j).key = (hget h j).key ∧
    (hget (hset h a m) j).value = (hget h j).value := by
  by_cases hja : j = a
  · subst hja; rw [hget_hset_self]; exact ⟨hkey, hval⟩
  · rw [hget_hset_ne m hja]; exact ⟨rfl, rfl⟩

theorem remove_node_kv (s : Cache) (i j : Nat) :
    (hget (_remove_node s i).heap j).key = (hget s.heap j).key ∧
    (hget (_remove_node s i).heap j).value = (hget s.heap j).value := by
  show (hget (hset (hset s.heap _ _) _ _) j).key = _ ∧ _
  have h1 := kv_hset_link s.heap (hget s.heap i).prev
    { hget s.heap (hget s.heap i).prev with next := (hget s.heap i).next } rfl rfl
  have h2 := kv_hset_link (hset s.heap (hget s.heap i).prev
      { hget s.heap (hget s.heap i).prev with next := (hget s.heap i).next })
    (hget s.heap i).next
    { hget (hset s.heap (hget s.heap i).prev
        { hget s.heap (hget s.heap i).prev with next := (hget s.heap i).next })
        (hget s.heap i).next with prev := (hget s.heap i).prev } rfl rfl
  exact ⟨(h2 j).1.trans (h1 j).1, (h2 j).2.trans (h1 j).2⟩

theorem add_node_kv (s : Cache) (i j : Nat) :
    (hget (_add_node s i).heap j).key = (hget s.heap j).key ∧
    (hget (_add_node s i).heap j).value = (hget s.heap j).value := by
  show (hget (hset (hset (hset (hset s.heap _ _) _ _) _ _) _ _) j).key = _ ∧ _
  have h1 := kv_hset_link s.heap i { hget s.heap i with prev := headId } rfl rfl
  set k1 := hset s.heap i { hget s.heap i with prev := headId } with hk1
  have h2 := kv_hset_link k1 i { hget k1 i with next := (hget k1 headId).next } rfl rfl
  set k2 := hset k1 i { hget k1 i with next := (hget k1 headId).next } with hk2
  have h3 := kv_hset_link k2 (hget k2 headId).next
    { hget k2 (hget k2 headId).next with prev := i } rfl rfl
  set k3 := hset k2 (hget k2 headId).next { hget k2 (hget k2 headId).next with prev := i } with hk3
  have h4 := kv_hset_link k3 headId { hget k3 headId with next := i } rfl rfl
  exact ⟨(((h4 j).1.trans (h3 j).1).trans (h2 j).1).trans (h1 j).1,
         (((h4 j).2.trans (h3 j).2).trans (h2 j).2).trans (h1 j).2⟩

theorem move_to_head_kv (s : Cache) (i j : Nat) :
    (hget (_move_to_head s i).heap j).key = (hget s.heap j).key ∧
    (hget (_move_to_head s i).heap j).value = (hget s.heap j).value := by
  have h1 := remove_node_kv s i j
  have h2 := add_node_kv (_remove_node s i) i j
  exact ⟨h2.1.trans h1.1, h2.2.trans h1.2⟩

theorem remove_node_dict (s : Cache) (i : Nat) : (_remove_node s i).dict = s.dict := rfl

theorem remove_node_capacity (s : Cache) (i : Nat) : (_remove_node s i).capacity = s.capacity := rfl

theorem remove_node_fresh (s : Cache) (i : Nat) : (_remove_node s i).fresh = s.fresh := rfl

theorem add_node_dict (s : Cache) (i : Nat) : (_add_node s i).dict = s.dict := rfl

theorem add_node_capacity (s : Cache) (i : Nat) : (_add_node s i).capacity = s.capacity := rfl

theorem add_node_fresh (s : Cache) (i : Nat) : (_add_node s i).fresh = s.fresh := rfl

/-- Pointwise description of the store after `_remove_node` at a node whose
stored neighbours `p` and `n` are distinct. -/
theorem remove_node_hget (s : Cache) (i : Nat) {p n : Nat}
    (hp : (hget s.heap i).prev = p) (hn : (hget s.heap i).next = n) (hpn : p ≠ n) :
    hget (_remove_node s i).heap p = { hget s.heap p with next := n } ∧
    hget (_remove_node s i).heap n = { hget s.heap n with prev := p } ∧
    (∀ j, j ≠ p → j ≠ n → hget (_remove_node s i).heap j = hget s.heap j) := by
  have hh : (_remove_node s i).heap
      = hset (hset s.heap p { hget s.heap p with next := n }) n
          { hget (hset s.heap p { hget s.heap p with next := n }) n with prev := p } := by
    show hset (hset s.heap _ _) _ _ = _
    rw [hp, hn]
  refine ⟨?_, ?_, ?_⟩
  · rw [hh, hget_hset_ne _ hpn, hget_hset_self]
  · rw [hh, hget_hset_self, hget_hset_ne _ (Ne.symm hpn)]
  · intro j hjp hjn
    rw [hh, hget_hset_ne _ hjn, hget_hset_ne _ hjp]

/-- Pointwise description of the store after `_add_node`, where `j` is the
node currently linked right after the head sentinel. -/
theorem add_node_hget (s : Cache) (i : Nat) {j : Nat}
    (hj : (hget s.heap headId).next = j)
    (hih : i ≠ headId) (hji : j ≠ i) (hjh : j ≠ headId) :
    hget (_add_node s i).heap i = { hget s.heap i with prev := headId, next := j } ∧
    hget (_add_node s i).heap j = { hget s.heap j with prev := i } ∧
    hget (_add_node s i).heap headId = { hget s.heap headId with next := i } ∧
    (∀ x, x ≠ i → x ≠ j → x ≠ headId → hget (_add_node s i).heap x = hget s.heap x) := by
  have hih' : headId ≠ i := Ne.symm hih
  have hji' : i ≠ j := Ne.symm hji
  have hjh' : headId ≠ j := Ne.symm hjh
  refine ⟨?_, ?_, ?_, ?_⟩
  · simp [_add_node, hget_hset_self, hget_hset_ne, hih, hih', hji, hji', hjh, hjh', hj]
  · simp [_add_node, hget_hset_self, hget_hset_ne, hih, hih', hji, hji', hjh, hjh', hj]
  · simp [_add_node, hget_hset_self, hget_hset_ne, hih, hih', hji, hji', hjh, hjh', hj]
  · intro x hxi hxj hxh
    simp [_add_node, hget_hset_self, hget_hset_ne, hih, hih', hji, hji', hjh, hjh', hj,
      hxi, hxj, hxh]

end LRU

namespace LRU

theorem getLast_not_mem_dropLast {l : List Nat} (h : l ≠ []) (nd : l.Nodup) :
    l.getLast h ∉ l.dropLast := by
  intro hmem
  have he := List.dropLast_append_getLast h
  rw [← he] at nd
  rw [List.nodup_append] at nd
  exact nd.2.2 hmem (List.mem_singleton.mpr rfl)

theorem head_not_mem_tail {l : List Nat} (h : l ≠ []) (nd : l.Nodup) :
    l.head h ∉ l.tail := by
  intro hmem
  have he := List.head_cons_tail l h
  rw [← he, List.nodup_cons] at nd
  exact nd.1 hmem

/-- Unlinking a live node from a consistently linked chain leaves the chain
consistently linked with that node spliced out. -/
theorem remove_node_chain {s : Cache} {u w : List Nat} {i : Nat}
    (hnd : (headId :: (u ++ i :: w) ++ [tailId]).Nodup)
    (hch : List.Chain' (adj s.heap) (headId :: (u ++ i :: w) ++ [tailId])) :
    List.Chain' (adj (_remove_node s i).heap) (headId :: (u ++ w) ++ [tailId]) := by
  have hFeq : headId :: (u ++ i :: w) ++ [tailId]
      = (headId :: u) ++ i :: (w ++ [tailId]) := by simp
  rw [hFeq] at hnd hch
  have hGeq : headId :: (u ++ w) ++ [tailId] = (headId :: u) ++ (w ++ [tailId]) := by simp
  rw [hGeq]
  have hAne : (headId :: u) ≠ [] := List.cons_ne_nil _ _
  have hBne : (w ++ [tailId]) ≠ [] := by simp
  rw [List.chain'_append] at hch
  obtain ⟨hchA, hchiB, hlast⟩ := hch
  rw [List.chain'_cons'] at hchiB
  obtain ⟨hheadB, hchB⟩ := hchiB
  have hpA : (headId :: u).getLast? = some ((headId :: u).getLast hAne) :=
    List.getLast?_eq_getLast_of_ne_nil hAne
  have hnB : (w ++ [tailId]).head? = some ((w ++ [tailId]).head hBne) :=
    List.head?_eq_head hBne
  have adj_pi : adj s.heap ((headId :: u).getLast hAne) i := by
    refine hlast _ hpA i ?_
    simp
  have adj_in : adj s.heap i ((w ++ [tailId]).head hBne) := hheadB _ hnB
  rw [List.nodup_append] at hnd
  obtain ⟨ndA, ndiB, hdisj⟩ := hnd
  rw [List.nodup_cons] at ndiB
  obtain ⟨hiB, ndB⟩ := ndiB
  have pmem : (headId :: u).getLast hAne ∈ headId :: u := List.getLast_mem hAne
  have nmem : (w ++ [tailId]).head hBne ∈ w ++ [tailId] := List.head_mem hBne
  have hpn : (headId :: u).getLast hAne ≠ (w ++ [tailId]).head hBne := by
    intro e
    exact hdisj pmem (List.mem_cons_of_mem _ (e ▸ nmem))
  obtain ⟨ep, en, eo⟩ := remove_node_hget s i adj_pi.2 adj_in.1 hpn
  rw [List.chain'_append]
  refine ⟨?_, ?_, ?_⟩
  · refine chain'_adj_congr hchA (fun x hx => ?_) (fun x hx => ?_)
    · have hxA : x ∈ headId :: u := List.dropLast_subset _ hx
      have hxp : x ≠ (headId :: u).getLast hAne := by
        intro e
        exact getLast_not_mem_dropLast hAne ndA (e ▸ hx)
      have hxn : x ≠ (w ++ [tailId]).head hBne := by
        intro e
        exact hdisj hxA (List.mem_cons_of_mem _ (e ▸ nmem))
      rw [eo x hxp hxn]
    · have hxA : x ∈ headId :: u := List.tail_subset _ hx
      have hxn : x ≠ (w ++ [tailId]).head hBne := by
        intro e
        exact hdisj hxA (List.mem_cons_of_mem _ (e ▸ nmem))
      by_cases hxp : x = (headId :: u).getLast hAne
      · rw [hxp, ep]
      · rw [eo x hxp hxn]
  · refine chain'_adj_congr hchB (fun x hx => ?_) (fun x hx => ?_)
    · have hxB : x ∈ w ++ [tailId] := List.dropLast_subset _ hx
      have hxp : x ≠ (headId :: u).getLast hAne := by
        intro e
        exact hdisj (e ▸ pmem) (List.mem_cons_of_mem _ hxB)
      by_cases hxn : x = (w ++ [tailId]).head hBne
      · rw [hxn, en]
      · rw [eo x hxp hxn]
    · have hxB : x ∈ w ++ [tailId] := List.tail_subset _ hx
      have hxp : x ≠ (headId :: u).getLast hAne := by
        intro e
        exact hdisj (e ▸ pmem) (List.mem_cons_of_mem _ hxB)
      have hxn : x ≠ (w ++ [tailId]).head hBne := by
        intro e
        exact head_not_mem_tail hBne ndB (e ▸ hx)
      rw [eo x hxp hxn]
  · intro x hx y hy
    rw [hpA] at hx
    rw [hnB] at hy
    have hx' : x = (headId :: u).getLast hAne := by
      simpa using hx.symm
    have hy' : y = (w ++ [tailId]).head hBne := by
      simpa using hy.symm
    rw [hx', hy']
    constructor
    · rw [ep]
    · rw [en]

end LRU

namespace LRU

/-- Linking a brand-new node right after the head sentinel of a consistently
linked chain yields the chain with that node at the front. -/
theorem add_node_chain {s : Cache} {c : List Nat} {i : Nat}
    (hnd : (headId :: c ++ [tailId]).Nodup)
    (hch : List.Chain' (adj s.heap) (headId :: c ++ [tailId]))
    (hi : i ∉ headId :: c ++ [tailId]) :
    List.Chain' (adj (_add_node s i).heap) (headId :: i :: c ++ [tailId]) := by
  have hBne : (c ++ [tailId]) ≠ [] := by simp
  rw [List.cons_append] at hch hnd hi
  rw [List.chain'_cons'] at hch
  obtain ⟨hheadB, hchB⟩ := hch
  have hnB : (c ++ [tailId]).head? = some ((c ++ [tailId]).head hBne) :=
    List.head?_eq_head hBne
  have adj_hj : adj s.heap headId ((c ++ [tailId]).head hBne) := hheadB _ hnB
  rw [List.nodup_cons] at hnd
  obtain ⟨hhB, ndB⟩ := hnd
  have jmem : (c ++ [tailId]).head hBne ∈ c ++ [tailId] := List.head_mem hBne
  have hih : i ≠ headId := by
    intro e
    exact hi (e ▸ List.mem_cons_self _ _)
  have hji : (c ++ [tailId]).head hBne ≠ i := by
    intro e
    exact hi (List.mem_cons_of_mem _ (e ▸ jmem))
  have hjh : (c ++ [tailId]).head hBne ≠ headId := by
    intro e
    exact hhB (e ▸ jmem)
  obtain ⟨ei, ej, eh, eo⟩ := add_node_hget s i adj_hj.1 hih hji hjh
  rw [List.cons_append, List.cons_append, List.chain'_cons', List.chain'_cons']
  refine ⟨?_, ?_, ?_⟩
  · intro y hy
    simp only [List.head?_cons, Option.mem_def, Option.some.injEq] at hy
    subst hy
    constructor
    · rw [eh]
    · rw [ei]
  · intro y hy
    rw [hnB] at hy
    have hy' : y = (c ++ [tailId]).head hBne := by simpa using hy.symm
    subst hy'
    constructor
    · rw [ei]
    · rw [ej]
  · refine chain'_adj_congr hchB (fun x hx => ?_) (fun x hx => ?_)
    · have hxB : x ∈ c ++ [tailId] := List.dropLast_subset _ hx
      have hxi : x ≠ i := by
        intro e
        exact hi (List.mem_cons_of_mem _ (e ▸ hxB))
      have hxh : x ≠ headId := by
        intro e
        exact hhB (e ▸ hxB)
      by_cases hxj : x = (c ++ [tailId]).head hBne
      · rw [hxj, ej]
      · rw [eo x hxi hxj hxh]
    · have hxB : x ∈ c ++ [tailId] := List.tail_subset _ hx
      have hxi : x ≠ i := by
        intro e
        exact hi (List.mem_cons_of_mem _ (e ▸ hxB))
      have hxh : x ≠ headId := by
        intro e
        exact hhB (e ▸ hxB)
      have hxj : x ≠ (c ++ [tailId]).head hBne := by
        intro e
        exact head_not_mem_tail hBne ndB (e ▸ hx)
      rw [eo x hxi hxj hxh]

end LRU

namespace LRU

theorem F_nodup_of {c : List Nat} (h2 : ∀ i ∈ c, 2 ≤ i) (nd : c.Nodup) :
    (headId :: c ++ [tailId]).Nodup := by
  have h0 : headId ∉ c := fun hm => by
    have := h2 _ hm
    simp [headId] at this
  have h1 : tailId ∉ c := fun hm => by
    have := h2 _ hm
    simp [tailId] at this
  rw [List.cons_append, List.nodup_cons, List.nodup_append]
  refine ⟨?_, nd, List.nodup_singleton _, ?_⟩
  · simp only [List.mem_append, List.mem_singleton]
    push_neg
    exact ⟨h0, by decide⟩
  · intro x hx hx1
    rw [List.mem_singleton] at hx1
    subst hx1
    exact h1 hx

theorem invc_dict_keys_nodup {s : Cache} {c : List Nat} (inv : InvC s c) :
    (s.dict.map Prod.fst).Nodup := by
  have hp := inv.dictPerm.map Prod.fst
  rw [List.map_map] at hp
  have : (c.map (Prod.fst ∘ fun i => ((hget s.heap i).key, i))) =
      c.map (fun i => (hget s.heap i).key) := by
    simp [Function.comp]
  rw [this] at hp
  exact hp.nodup_iff.mpr inv.keysND

theorem invc_size {s : Cache} {c : List Nat} (inv : InvC s c) :
    s.dict.length = c.length := by
  have := inv.dictPerm.length_eq
  simpa using this

theorem invc_dget_some {s : Cache} {c : List Nat} (inv : InvC s c) {k : Int} {i : Nat} :
    dget s.dict k = some i ↔ ((hget s.heap i).key = k ∧ i ∈ c) := by
  constructor
  · intro hd
    have hm : (k, i) ∈ s.dict := mem_of_dget_some hd
    have hm2 : (k, i) ∈ c.map (fun j => ((hget s.heap j).key, j)) :=
      inv.dictPerm.mem_iff.mp hm
    obtain ⟨j, hj, he⟩ := List.mem_map.mp hm2
    have hji : j = i := congrArg Prod.snd he
    subst hji
    exact ⟨congrArg Prod.fst he, hj⟩
  · intro ⟨hk, hi⟩
    have hm2 : (k, i) ∈ c.map (fun j => ((hget s.heap j).key, j)) :=
      List.mem_map.mpr ⟨i, hi, by rw [hk]⟩
    exact dget_some_of_mem (invc_dict_keys_nodup inv) (inv.dictPerm.mem_iff.mpr hm2)

theorem invc_dget_none {s : Cache} {c : List Nat} (inv : InvC s c) {k : Int} :
    dget s.dict k = none ↔ k ∉ c.map (fun i => (hget s.heap i).key) := by
  rw [dget_eq_none_iff]
  constructor
  · intro hnd hmem
    obtain ⟨i, hi, he⟩ := List.mem_map.mp hmem
    exact hnd (List.mem_map.mpr ⟨(k, i), inv.dictPerm.mem_iff.mpr
      (List.mem_map.mpr ⟨i, hi, by rw [he]⟩), rfl⟩)
  · intro hnd hmem
    obtain ⟨p, hp, he⟩ := List.mem_map.mp hmem
    have hm2 := inv.dictPerm.mem_iff.mp hp
    obtain ⟨i, hi, hei⟩ := List.mem_map.mp hm2
    refine hnd (List.mem_map.mpr ⟨i, hi, ?_⟩)
    have h1 : (hget s.heap i).key = p.1 := congrArg Prod.fst hei
    rw [h1, he]

/-- `_move_to_head` on a live node preserves the invariant, rotating the
node to the front of the recency chain; the key index, capacity and
allocation counter are untouched, and the node lands right after the head
sentinel. -/
theorem move_to_head_invc {s : Cache} {u w : List Nat} {i : Nat}
    (inv : InvC s (u ++ i :: w)) :
    InvC (_move_to_head s i) (i :: (u ++ w)) ∧
    (_move_to_head s i).dict = s.dict ∧
    (_move_to_head s i).capacity = s.capacity ∧
    (_move_to_head s i).fresh = s.fresh ∧
    (hget (_move_to_head s i).heap headId).next = i := by
  have himem : i ∈ u ++ i :: w := by simp
  have hFnd : (headId :: (u ++ i :: w) ++ [tailId]).Nodup :=
    F_nodup_of (fun x hx => (inv.idsOK x hx).1) inv.ndC
  have hch1 : List.Chain' (adj (_remove_node s i).heap) (headId :: (u ++ w) ++ [tailId]) :=
    remove_node_chain hFnd inv.links
  have hndc : (u ++ i :: w).Nodup := inv.ndC
  have huw_nd : (u ++ w).Nodup := by
    have hsub : (u ++ w).Sublist (u ++ i :: w) :=
      List.Sublist.append_left (List.sublist_cons_self i w) u
    exact hndc.sublist hsub
  have hiuw : i ∉ u ++ w := by
    rw [List.nodup_append] at hndc
    intro hmem
    rcases List.mem_append.mp hmem with h | h
    · exact hndc.2.2 h (List.mem_cons_self _ _)
    · rw [List.nodup_cons] at hndc
      exact hndc.2.1.1 h
  have h2uw : ∀ x ∈ u ++ w, 2 ≤ x := by
    intro x hx
    refine (inv.idsOK x ?_).1
    rcases List.mem_append.mp hx with h | h
    · exact List.mem_append.mpr (Or.inl h)
    · exact List.mem_append.mpr (Or.inr (List.mem_cons_of_mem _ h))
  have hnd2 : (headId :: (u ++ w) ++ [tailId]).Nodup := F_nodup_of h2uw huw_nd
  have hi2 : i ∉ headId :: (u ++ w) ++ [tailId] := by
    have h2i : 2 ≤ i := (inv.idsOK i himem).1
    rw [List.cons_append, List.mem_cons, List.mem_append, List.mem_singleton]
    push_neg
    refine ⟨?_, hiuw, ?_⟩
    · intro e; rw [e] at h2i; simp [headId] at h2i
    · intro e; rw [e] at h2i; simp [tailId] at h2i
  have hch2 : List.Chain' (adj (_move_to_head s i).heap)
      (headId :: i :: (u ++ w) ++ [tailId]) :=
    add_node_chain hnd2 hch1 hi2
  have hdict : (_move_to_head s i).dict = s.dict := rfl
  have hcap : (_move_to_head s i).capacity = s.capacity := rfl
  have hfresh : (_move_to_head s i).fresh = s.fresh := rfl
  have hkv := move_to_head_kv s i
  have hperm : (u ++ i :: w).Perm (i :: (u ++ w)) := List.perm_middle
  have hmapkv : (i :: (u ++ w)).map (fun j => (hget (_move_to_head s i).heap j).key) =
      (i :: (u ++ w)).map (fun j => (hget s.heap j).key) :=
    List.map_congr_left (fun x _ => (hkv x).1)
  have hmapkv2 : (i :: (u ++ w)).map (fun j => ((hget (_move_to_head s i).heap j).key, j)) =
      (i :: (u ++ w)).map (fun j => ((hget s.heap j).key, j)) :=
    List.map_congr_left (fun x _ => by rw [(hkv x).1])
  refine ⟨?_, hdict, hcap, hfresh, ?_⟩
  · refine ⟨?_, ?_, ?_, ?_, ?_, ?_, ?_, ?_⟩
    · rw [hcap]; exact inv.capPos
    · rw [hfresh]; exact inv.freshLB
    · intro x hx
      rw [hfresh]
      exact inv.idsOK x (hperm.symm.subset hx)
    · exact List.nodup_cons.mpr ⟨hiuw, huw_nd⟩
    · rw [hmapkv]
      exact ((hperm.map (fun j => (hget s.heap j).key)).nodup_iff).mp inv.keysND
    · exact hch2
    · rw [hdict, hmapkv2]
      exact inv.dictPerm.trans (hperm.map (fun j => ((hget s.heap j).key, j)))
    · rw [hcap]
      have : (i :: (u ++ w)).length = (u ++ i :: w).length := hperm.symm.length_eq
      rw [this]
      exact inv.sizeLE
  · have := hch2
    rw [List.cons_append, List.cons_append, List.chain'_cons] at this
    exact this.1.1

end LRU

namespace LRU

/-- On a miss, `get` returns `-1` and the state is untouched. -/
theorem get_miss_eq {s : Cache} {k : Int} (hm : dget s.dict k = none) :
    get s k = (-1, s) := by
  simp only [get, hm]

/-- On a hit, `get` returns the stored value and rotates the entry to the
front; nothing else changes. -/
theorem get_hit_spec {s : Cache} {c : List Nat} {k : Int} {i : Nat}
    (inv : InvC s c) (hd : dget s.dict k = some i) :
    ∃ u w, c = u ++ i :: w ∧
      (hget s.heap i).key = k ∧
      get s k = ((hget s.heap i).value, _move_to_head s i) ∧
      InvC (get s k).2 (i :: (u ++ w)) ∧
      (get s k).2.dict = s.dict ∧
      (get s k).2.capacity = s.capacity ∧
      (get s k).2.fresh = s.fresh ∧
      (∀ j, (hget (get s k).2.heap j).key = (hget s.heap j).key ∧
            (hget (get s k).2.heap j).value = (hget s.heap j).value) ∧
      (hget (get s k).2.heap headId).next = i := by
  obtain ⟨hkey, hmem⟩ := (invc_dget_some inv).mp hd
  obtain ⟨u, w, hc⟩ := List.append_of_mem hmem
  subst hc
  obtain ⟨inv', hdict, hcap, hfresh, hhead⟩ := move_to_head_invc inv
  have hget_eq : get s k = ((hget (_move_to_head s i).heap i).value, _move_to_head s i) := by
    simp only [get, hd]
  have hval : (hget (_move_to_head s i).heap i).value = (hget s.heap i).value :=
    (move_to_head_kv s i i).2
  refine ⟨u, w, rfl, hkey, ?_, ?_, ?_, ?_, ?_, ?_, ?_⟩
  · rw [hget_eq, hval]
  · rw [hget_eq]; exact inv'
  · rw [hget_eq]; exact hdict
  · rw [hget_eq]; exact hcap
  · rw [hget_eq]; exact hfresh
  · rw [hget_eq]; exact move_to_head_kv s i
  · rw [hget_eq]; exact hhead

/-- `put` on a key already present updates the value in place, rotates the
entry to the front, and leaves the key index untouched. -/
theorem put_existing_spec {s : Cache} {c : List Nat} {k v : Int} {i : Nat}
    (inv : InvC s c) (hd : dget s.dict k = some i) :
    ∃ u w, c = u ++ i :: w ∧
      InvC (put s k v) (i :: (u ++ w)) ∧
      (put s k v).dict = s.dict ∧
      (put s k v).capacity = s.capacity ∧
      (put s k v).fresh = s.fresh ∧
      (hget (put s k v).heap i).key = k ∧
      (hget (put s k v).heap i).value = v ∧
      (∀ j, j ≠ i → (hget (put s k v).heap j).key = (hget s.heap j).key ∧
            (hget (put s k v).heap j).value = (hget s.heap j).value) ∧
      (hget (put s k v).heap headId).next = i := by
  obtain ⟨hkey, hmem⟩ := (invc_dget_some inv).mp hd
  obtain ⟨u, w, hc⟩ := List.append_of_mem hmem
  subst hc
  have hput : put s k v
      = _move_to_head { s with heap := hset s.heap i { hget s.heap i with value := v } } i := by
    simp only [put, hd]
  set s3 : Cache := { s with heap := hset s.heap i { hget s.heap i with value := v } } with hs3
  have hkv3 : ∀ j, (hget s3.heap j).prev = (hget s.heap j).prev ∧
      (hget s3.heap j).next = (hget s.heap j).next ∧
      (hget s3.heap j).key = (hget s.heap j).key := by
    intro j
    by_cases hji : j = i
    · subst hji
      rw [hs3]
      show (hget (hset s.heap j _) j).prev = _ ∧ _
      rw [hget_hset_self]
      exact ⟨rfl, rfl, rfl⟩
    · rw [hs3]
      show (hget (hset s.heap i _) j).prev = _ ∧ _
      rw [hget_hset_ne _ hji]
      exact ⟨rfl, rfl, rfl⟩
  have hvi : (hget s3.heap i).value = v := by
    rw [hs3]
    show (hget (hset s.heap i _) i).value = v
    rw [hget_hset_self]
  have hvothers : ∀ j, j ≠ i → (hget s3.heap j).value = (hget s.heap j).value := by
    intro j hji
    rw [hs3]
    show (hget (hset s.heap i _) j).value = _
    rw [hget_hset_ne _ hji]
  have hmap3 : ∀ l : List Nat, l.map (fun j => (hget s3.heap j).key)
      = l.map (fun j => (hget s.heap j).key) :=
    fun l => List.map_congr_left (fun x _ => (hkv3 x).2.2)
  have hmap3p : ∀ l : List Nat, l.map (fun j => ((hget s3.heap j).key, j))
      = l.map (fun j => ((hget s.heap j).key, j)) :=
    fun l => List.map_congr_left (fun x _ => by rw [(hkv3 x).2.2])
  have inv3 : InvC s3 (u ++ i :: w) := by
    refine ⟨inv.capPos, inv.freshLB, inv.idsOK, inv.ndC, ?_, ?_, ?_, inv.sizeLE⟩
    · rw [hmap3]; exact inv.keysND
    · exact chain'_adj_congr inv.links
        (fun x _ => (hkv3 x).2.1) (fun x _ => (hkv3 x).1)
    · rw [hmap3p]; exact inv.dictPerm
  obtain ⟨inv', hdict, hcap, hfresh, hhead⟩ := move_to_head_invc inv3
  have hkvm := move_to_head_kv s3 i
  refine ⟨u, w, rfl, ?_, ?_, ?_, ?_, ?_, ?_, ?_, ?_⟩
  · rw [hput]; exact inv'
  · rw [hput, hdict]
  · rw [hput, hcap]
  · rw [hput, hfresh]
  · rw [hput, (hkvm i).1, (hkv3 i).2.2, hkey]
  · rw [hput, (hkvm i).2, hvi]
  · intro j hji
    rw [hput]
    exact ⟨(hkvm j).1.trans (hkv3 j).2.2, (hkvm j).2.trans (hvothers j hji)⟩
  · rw [hput]; exact hhead

end LRU

namespace LRU

theorem invc_head_next {s : Cache} {c : List Nat} (inv : InvC s c) :
    (hget s.heap headId).next = (c ++ [tailId]).head (by simp) := by
  have h := inv.links
  rw [List.cons_append, List.chain'_cons'] at h
  exact (h.1 _ (List.head?_eq_head (by simp))).1

theorem invc_tail_prev {s : Cache} {c : List Nat} (inv : InvC s c) (hc : c ≠ []) :
    (hget s.heap tailId).prev = c.getLast hc := by
  have h := inv.links
  have hF : headId :: c ++ [tailId] = (headId :: c) ++ [tailId] := rfl
  rw [hF, List.chain'_append] at h
  have hlast : (headId :: c).getLast? = some ((headId :: c).getLast (List.cons_ne_nil _ _)) :=
    List.getLast?_eq_getLast_of_ne_nil _
  have hadj := h.2.2 _ hlast tailId (by simp)
  have hgl : (headId :: c).getLast (List.cons_ne_nil _ _) = c.getLast hc :=
    List.getLast_cons hc
  rw [hgl] at hadj
  exact hadj.2

theorem mem_F_ne_fresh {s : Cache} {c : List Nat} (inv : InvC s c) :
    ∀ x ∈ headId :: c ++ [tailId], x ≠ s.fresh := by
  intro x hx he
  have hfr2 := inv.freshLB
  rw [List.cons_append, List.mem_cons, List.mem_append, List.mem_singleton] at hx
  rcases hx with h | h | h
  · rw [h, headId] at he; rw [← he] at hfr2; exact absurd hfr2 (by norm_num)
  · exact absurd ((he ▸ (inv.idsOK x h).2)) (lt_irrefl _)
  · rw [h, tailId] at he; rw [← he] at hfr2; exact absurd hfr2 (by norm_num)

/-- `put` of a new key with spare room: the fresh node goes to the front of
the chain and the key index grows by one entry. -/
theorem put_new_nofull_spec {s : Cache} {c : List Nat} {k v : Int}
    (inv : InvC s c) (hd : dget s.dict k = none)
    (hlt : (s.dict.length : Int) < s.capacity) :
    InvC (put s k v) (s.fresh :: c) ∧
    (put s k v).dict = s.dict ++ [(k, s.fresh)] ∧
    (put s k v).capacity = s.capacity ∧
    (put s k v).fresh = s.fresh + 1 ∧
    (hget (put s k v).heap s.fresh).key = k ∧
    (hget (put s k v).heap s.fresh).value = v ∧
    (∀ j, j ≠ s.fresh → (hget (put s k v).heap j).key = (hget s.heap j).key ∧
          (hget (put s k v).heap j).value = (hget s.heap j).value) ∧
    (hget (put s k v).heap headId).next = s.fresh := by
  have hkc : k ∉ c.map (fun i => (hget s.heap i).key) := (invc_dget_none inv).mp hd
  have hkd : k ∉ s.dict.map Prod.fst := dget_eq_none_iff.mp hd
  have hput : put s k v = _add_node
      { s with heap := hset s.heap s.fresh { key := k, value := v, prev := 0, next := 0 }
             , dict := dset s.dict k s.fresh
             , fresh := s.fresh + 1 } s.fresh := by
    simp only [put, hd]
    split
    · next h => exact absurd h (not_le.mpr hlt)
    · next h => rfl
  set sE : Cache :=
      { s with heap := hset s.heap s.fresh { key := k, value := v, prev := 0, next := 0 }
             , dict := dset s.dict k s.fresh
             , fresh := s.fresh + 1 } with hsE
  have hFne := mem_F_ne_fresh inv
  have hEx : ∀ x, x ≠ s.fresh → hget sE.heap x = hget s.heap x := by
    intro x hx
    rw [hsE]
    exact hget_hset_ne _ hx
  have hEself : hget sE.heap s.fresh = { key := k, value := v, prev := 0, next := 0 } := by
    rw [hsE]
    exact hget_hset_self _ _ _
  have hFnd : (headId :: c ++ [tailId]).Nodup :=
    F_nodup_of (fun x hx => (inv.idsOK x hx).1) inv.ndC
  have hchE : List.Chain' (adj sE.heap) (headId :: c ++ [tailId]) :=
    chain'_adj_congr inv.links
      (fun x hx => by rw [hEx x (hFne x (List.dropLast_subset _ hx))])
      (fun x hx => by rw [hEx x (hFne x (List.tail_subset _ hx))])
  have hiF : s.fresh ∉ headId :: c ++ [tailId] := fun hm => hFne _ hm rfl
  have hchPut : List.Chain' (adj (_add_node sE s.fresh).heap)
      (headId :: s.fresh :: c ++ [tailId]) := add_node_chain hFnd hchE hiF
  have hkvA := add_node_kv sE s.fresh
  have hkvput : ∀ j, j ≠ s.fresh →
      (hget (put s k v).heap j).key = (hget s.heap j).key ∧
      (hget (put s k v).heap j).value = (hget s.heap j).value := by
    intro j hj
    rw [hput]
    exact ⟨(hkvA j).1.trans (by rw [hEx j hj]), (hkvA j).2.trans (by rw [hEx j hj])⟩
  have hkvfresh : (hget (put s k v).heap s.fresh).key = k ∧
      (hget (put s k v).heap s.fresh).value = v := by
    rw [hput]
    refine ⟨(hkvA s.fresh).1.trans ?_, (hkvA s.fresh).2.trans ?_⟩
    · rw [hEself]
    · rw [hEself]
  have hmemF : ∀ x ∈ c, x ∈ headId :: c ++ [tailId] := by
    intro x hx
    rw [List.cons_append, List.mem_cons, List.mem_append]
    exact Or.inr (Or.inl hx)
  have hmapk : (s.fresh :: c).map (fun j => (hget (put s k v).heap j).key)
      = k :: c.map (fun j => (hget s.heap j).key) := by
    rw [List.map_cons, hkvfresh.1]
    congr 1
    refine List.map_congr_left (fun x hx => ?_)
    exact (hkvput x (fun e => hFne x (hmemF x hx) e)).1
  have hmapp : (s.fresh :: c).map (fun j => ((hget (put s k v).heap j).key, j))
      = (k, s.fresh) :: c.map (fun j => ((hget s.heap j).key, j)) := by
    rw [List.map_cons, hkvfresh.1]
    congr 1
    refine List.map_congr_left (fun x hx => ?_)
    rw [(hkvput x (fun e => hFne x (hmemF x hx) e)).1]
  have hdict : (put s k v).dict = s.dict ++ [(k, s.fresh)] := by
    rw [hput]
    show sE.dict = _
    rw [hsE]
    show dset s.dict k s.fresh = _
    exact dset_eq_append _ hkd
  have hcap : (put s k v).capacity = s.capacity := by rw [hput]; rfl
  have hfresh : (put s k v).fresh = s.fresh + 1 := by rw [hput]; rfl
  have hcfr : ∀ x ∈ c, x ≠ s.fresh := fun x hx e =>
    absurd (e ▸ (inv.idsOK x hx).2) (lt_irrefl _)
  refine ⟨?_, hdict, hcap, hfresh, hkvfresh.1, hkvfresh.2, hkvput, ?_⟩
  · refine ⟨?_, ?_, ?_, ?_, ?_, ?_, ?_, ?_⟩
    · rw [hcap]; exact inv.capPos
    · rw [hfresh]
      have hfr := inv.freshLB
      omega
    · intro x hx
      rw [hfresh]
      rcases List.mem_cons.mp hx with h | h
      · subst h; exact ⟨inv.freshLB, by omega⟩
      · have := inv.idsOK x h
        exact ⟨this.1, by omega⟩
    · exact List.nodup_cons.mpr ⟨fun hm => hcfr _ hm rfl, inv.ndC⟩
    · rw [hmapk]
      exact List.nodup_cons.mpr ⟨hkc, inv.keysND⟩
    · rw [hput]; exact hchPut
    · rw [hdict, hmapp]
      exact (List.perm_append_singleton _ _).trans (inv.dictPerm.cons _)
    · have hsz := invc_size inv
      have hlen : (((s.fresh :: c).length : Nat) : Int) = (s.dict.length : Int) + 1 := by
        rw [List.length_cons, hsz]
        push_cast
        ring
      rw [hcap, hlen]
      omega
  · rw [hput]
    have := hchPut
    rw [List.cons_append, List.cons_append, List.chain'_cons] at this
    exact this.1.1

end LRU

namespace LRU

theorem ddel_append_right {l1 l2 : List (Int × Nat)} {k : Int}
    (hk : k ∉ l1.map Prod.fst) : ddel (l1 ++ l2) k = l1 ++ ddel l2 k := by
  induction l1 with
  | nil => rfl
  | cons p rest ih =>
    rw [List.map_cons, List.mem_cons] at hk
    push_neg at hk
    have hp : ¬ p.1 = k := fun e => hk.1 e.symm
    show (if p.1 = k then rest ++ l2 else p :: ddel (rest ++ l2) k) = _
    rw [if_neg hp, ih hk.2, List.cons_append]

theorem ddel_perm_right {k : Int} :
    ∀ {d l : List (Int × Nat)}, d.Perm l → (d.map Prod.fst).Nodup →
      (ddel d k).Perm (ddel l k) := by
  intro d l h
  induction h with
  | nil => intro _; exact List.Perm.refl _
  | cons a h ih =>
    intro nd
    rw [List.map_cons, List.nodup_cons] at nd
    show (if a.1 = k then _ else a :: _).Perm (if a.1 = k then _ else a :: _)
    by_cases ha : a.1 = k
    · rw [if_pos ha, if_pos ha]; exact h
    · rw [if_neg ha, if_neg ha]; exact (ih nd.2).cons a
  | swap x y l =>
    intro nd
    rw [List.map_cons, List.map_cons, List.nodup_cons, List.mem_cons] at nd
    push_neg at nd
    have hyx : y.1 ≠ x.1 := nd.1.1
    show (ddel (y :: x :: l) k).Perm (ddel (x :: y :: l) k)
    by_cases hy : y.1 = k <;> by_cases hx : x.1 = k
    · exact absurd (hy.trans hx.symm) hyx
    · show (if y.1 = k then x :: l else y :: ddel (x :: l) k).Perm
        (if x.1 = k then y :: l else x :: ddel (y :: l) k)
      rw [if_pos hy, if_neg hx]
      show (x :: l).Perm (x :: (if y.1 = k then l else y :: ddel l k))
      rw [if_pos hy]
    · show (if y.1 = k then x :: l else y :: ddel (x :: l) k).Perm
        (if x.1 = k then y :: l else x :: ddel (y :: l) k)
      rw [if_neg hy, if_pos hx]
      show (y :: (if x.1 = k then l else x :: ddel l k)).Perm (y :: l)
      rw [if_pos hx]
    · show (if y.1 = k then x :: l else y :: ddel (x :: l) k).Perm
        (if x.1 = k then y :: l else x :: ddel (y :: l) k)
      rw [if_neg hy, if_neg hx]
      show (y :: (if x.1 = k then l else x :: ddel l k)).Perm
        (x :: (if y.1 = k then l else y :: ddel l k))
      rw [if_neg hx, if_neg hy]
      exact List.Perm.swap x y (ddel l k)
  | trans h1 h2 ih1 ih2 =>
    intro nd
    exact (ih1 nd).trans (ih2 (((h1.map Prod.fst).nodup_iff).mp nd))

/-- `put` of a new key at full capacity: the node before the tail sentinel
(the LRU entry) is evicted from both the chain and the key index, then the
fresh node goes to the front; the size is unchanged. -/
theorem put_new_full_spec {s : Cache} {c : List Nat} {k v : Int}
    (inv : InvC s c) (hd : dget s.dict k = none)
    (hge : (s.dict.length : Int) ≥ s.capacity) :
    ∃ hcne : c ≠ [],
      InvC (put s k v) (s.fresh :: c.dropLast) ∧
      (put s k v).capacity = s.capacity ∧
      (put s k v).fresh = s.fresh + 1 ∧
      (hget (put s k v).heap s.fresh).key = k ∧
      (hget (put s k v).heap s.fresh).value = v ∧
      (∀ j, j ≠ s.fresh → (hget (put s k v).heap j).key = (hget s.heap j).key ∧
            (hget (put s k v).heap j).value = (hget s.heap j).value) ∧
      (hget (put s k v).heap headId).next = s.fresh ∧
      dget (put s k v).dict ((hget s.heap (c.getLast hcne)).key) = none ∧
      dget (put s k v).dict k = some s.fresh ∧
      (∀ k', k' ≠ k → k' ≠ (hget s.heap (c.getLast hcne)).key →
        dget (put s k v).dict k' = dget s.dict k') ∧
      (put s k v).dict.length = s.dict.length := by
  have hkc : k ∉ c.map (fun i => (hget s.heap i).key) := (invc_dget_none inv).mp hd
  have keysnd : (s.dict.map Prod.fst).Nodup := invc_dict_keys_nodup inv
  have hsz : s.dict.length = c.length := invc_size inv
  have hcne : c ≠ [] := by
    intro he
    rw [he] at hsz
    simp only [List.length_nil] at hsz
    rw [hsz] at hge
    have := inv.capPos
    simp at hge
    omega
  set L : Nat := c.getLast hcne with hL
  have hcdec : c = c.dropLast ++ [L] := (List.dropLast_append_getLast hcne).symm
  have hLmem : L ∈ c := List.getLast_mem hcne
  have hLlt : L < s.fresh := (inv.idsOK L hLmem).2
  have hLne : L ≠ s.fresh := fun e => absurd (e ▸ hLlt) (lt_irrefl _)
  have hfr2 := inv.freshLB
  have htne : tailId ≠ s.fresh := by
    intro e
    rw [tailId] at e
    omega
  set sE0 : Cache :=
      { s with heap := hset s.heap s.fresh { key := k, value := v, prev := 0, next := 0 }
             , fresh := s.fresh + 1 } with hsE0
  have hEx : ∀ x, x ≠ s.fresh → hget sE0.heap x = hget s.heap x := by
    intro x hx
    rw [hsE0]
    exact hget_hset_ne _ hx
  have hEself : hget sE0.heap s.fresh = { key := k, value := v, prev := 0, next := 0 } := by
    rw [hsE0]
    exact hget_hset_self _ _ _
  have hLprev : (hget sE0.heap tailId).prev = L := by
    rw [hEx _ htne]
    exact invc_tail_prev inv hcne
  have hput : put s k v = _add_node
      { _remove_node sE0 L with
        dict := dset (ddel (_remove_node sE0 L).dict ((hget (_remove_node sE0 L).heap L).key))
          k s.fresh } s.fresh := by
    simp only [put, hd]
    split
    · next h =>
      simp only [_pop_tail]
      rw [show (hget (hset s.heap s.fresh { key := k, value := v, prev := 0, next := 0 })
        tailId).prev = L from hLprev]
    · next h => exact absurd hge h
  set sR : Cache := _remove_node sE0 L with hsR
  have hRkv := remove_node_kv sE0 L
  have hRdict : sR.dict = s.dict := rfl
  have hRcap : sR.capacity = s.capacity := rfl
  have hRfresh : sR.fresh = s.fresh + 1 := rfl
  have hFne := mem_F_ne_fresh inv
  have hFnd : (headId :: c ++ [tailId]).Nodup :=
    F_nodup_of (fun x hx => (inv.idsOK x hx).1) inv.ndC
  have hchE : List.Chain' (adj sE0.heap) (headId :: c ++ [tailId]) :=
    chain'_adj_congr inv.links
      (fun x hx => by rw [hEx x (hFne x (List.dropLast_subset _ hx))])
      (fun x hx => by rw [hEx x (hFne x (List.tail_subset _ hx))])
  have hFnd2 := hFnd
  have hchE2 := hchE
  rw [hcdec] at hFnd2 hchE2
  have hchR : List.Chain' (adj sR.heap) (headId :: (c.dropLast ++ []) ++ [tailId]) :=
    remove_node_chain hFnd2 hchE2
  rw [List.append_nil] at hchR
  have hkR : (hget sR.heap L).key = (hget s.heap L).key := by
    rw [(hRkv L).1, hEx _ hLne]
  have hLkey_mem : (hget s.heap L).key ∈ c.map (fun i => (hget s.heap i).key) :=
    List.mem_map.mpr ⟨L, hLmem, rfl⟩
  have hkkL : k ≠ (hget s.heap L).key := fun e => hkc (e ▸ hLkey_mem)
  have hkLdrop : (hget s.heap L).key ∉ c.dropLast.map (fun j => (hget s.heap j).key) := by
    have hknd := inv.keysND
    rw [hcdec, List.map_append, List.map_singleton, List.nodup_append] at hknd
    intro hm
    exact hknd.2.2 hm (List.mem_singleton.mpr rfl)
  have hddelmap : ddel (c.map (fun j => ((hget s.heap j).key, j))) ((hget s.heap L).key)
      = c.dropLast.map (fun j => ((hget s.heap j).key, j)) := by
    conv_lhs => rw [hcdec]
    rw [List.map_append, List.map_singleton, ddel_append_right ?hnm]
    case hnm =>
      rw [List.map_map]
      simpa [Function.comp] using hkLdrop
    show _ ++ (if (hget s.heap L).key = (hget s.heap L).key then [] else _) = _
    rw [if_pos rfl, List.append_nil]
  have hpermdel : (ddel s.dict ((hget s.heap L).key)).Perm
      (c.dropLast.map (fun j => ((hget s.heap j).key, j))) := by
    rw [← hddelmap]
    exact ddel_perm_right inv.dictPerm keysnd
  have hknotdel : k ∉ (ddel s.dict ((hget s.heap L).key)).map Prod.fst := by
    rw [← dget_eq_none_iff, dget_ddel_ne hkkL]
    exact hd
  have hdset : dset (ddel s.dict ((hget s.heap L).key)) k s.fresh
      = ddel s.dict ((hget s.heap L).key) ++ [(k, s.fresh)] :=
    dset_eq_append _ hknotdel
  have hdl_sub : c.dropLast.Sublist c := List.dropLast_sublist c
  have hdl_nd : c.dropLast.Nodup := inv.ndC.sublist hdl_sub
  have hdl_ids : ∀ x ∈ c.dropLast, 2 ≤ x ∧ x < s.fresh :=
    fun x hx => inv.idsOK x (hdl_sub.subset hx)
  have hndD : (headId :: c.dropLast ++ [tailId]).Nodup :=
    F_nodup_of (fun x hx => (hdl_ids x hx).1) hdl_nd
  have hfrD : s.fresh ∉ headId :: c.dropLast ++ [tailId] := by
    rw [List.cons_append, List.mem_cons, List.mem_append, List.mem_singleton]
    push_neg
    refine ⟨?_, ?_, ?_⟩
    · rw [headId]; omega
    · intro hm
      exact absurd (hdl_ids _ hm).2 (lt_irrefl _)
    · rw [tailId]; omega
  set sD : Cache := { sR with
      dict := dset (ddel sR.dict ((hget sR.heap L).key)) k s.fresh } with hsD
  have hsDdict : sD.dict = ddel s.dict ((hget s.heap L).key) ++ [(k, s.fresh)] := by
    rw [hsD]
    show dset (ddel sR.dict ((hget sR.heap L).key)) k s.fresh = _
    rw [hRdict, hkR, hdset]
  have hput2 : put s k v = _add_node sD s.fresh := by
    rw [hput, hsD, hsR, hkR]
  have hchD : List.Chain' (adj sD.heap) (headId :: c.dropLast ++ [tailId]) := hchR
  have hchPut : List.Chain' (adj (_add_node sD s.fresh).heap)
      (headId :: s.fresh :: c.dropLast ++ [tailId]) := add_node_chain hndD hchD hfrD
  have hkvA := add_node_kv sD s.fresh
  have hkvput : ∀ j, j ≠ s.fresh →
      (hget (put s k v).heap j).key = (hget s.heap j).key ∧
      (hget (put s k v).heap j).value = (hget s.heap j).value := by
    intro j hj
    rw [hput2]
    refine ⟨(hkvA j).1.trans ?_, (hkvA j).2.trans ?_⟩
    · show (hget sR.heap j).key = _
      rw [(hRkv j).1, hEx j hj]
    · show (hget sR.heap j).value = _
      rw [(hRkv j).2, hEx j hj]
  have hkvfresh : (hget (put s k v).heap s.fresh).key = k ∧
      (hget (put s k v).heap s.fresh).value = v := by
    rw [hput2]
    refine ⟨(hkvA s.fresh).1.trans ?_, (hkvA s.fresh).2.trans ?_⟩
    · show (hget sR.heap s.fresh).key = k
      rw [(hRkv s.fresh).1, hEself]
    · show (hget sR.heap s.fresh).value = v
      rw [(hRkv s.fresh).2, hEself]
  have hmemFdl : ∀ x ∈ c.dropLast, x ≠ s.fresh :=
    fun x hx e => absurd (e ▸ (hdl_ids x hx).2) (lt_irrefl _)
  have hmapk : (s.fresh :: c.dropLast).map (fun j => (hget (put s k v).heap j).key)
      = k :: c.dropLast.map (fun j => (hget s.heap j).key) := by
    rw [List.map_cons, hkvfresh.1]
    congr 1
    exact List.map_congr_left (fun x hx => (hkvput x (hmemFdl x hx)).1)
  have hmapp : (s.fresh :: c.dropLast).map (fun j => ((hget (put s k v).heap j).key, j))
      = (k, s.fresh) :: c.dropLast.map (fun j => ((hget s.heap j).key, j)) := by
    rw [List.map_cons, hkvfresh.1]
    congr 1
    exact List.map_congr_left (fun x hx => by rw [(hkvput x (hmemFdl x hx)).1])
  have hputdict : (put s k v).dict = ddel s.dict ((hget s.heap L).key) ++ [(k, s.fresh)] := by
    rw [hput2]
    show sD.dict = _
    exact hsDdict
  have hputdict2 : (put s k v).dict = dset (ddel s.dict ((hget s.heap L).key)) k s.fresh := by
    rw [hputdict, hdset]
  have hcap : (put s k v).capacity = s.capacity := by rw [hput2]; rfl
  have hfresh : (put s k v).fresh = s.fresh + 1 := by rw [hput2]; rfl
  have hdlkeys_sub : (c.dropLast.map (fun j => (hget s.heap j).key)).Sublist
      (c.map (fun j => (hget s.heap j).key)) := hdl_sub.map _
  refine ⟨hcne, ?_, hcap, hfresh, hkvfresh.1, hkvfresh.2, hkvput, ?_, ?_, ?_, ?_, ?_⟩
  · refine ⟨?_, ?_, ?_, ?_, ?_, ?_, ?_, ?_⟩
    · rw [hcap]; exact inv.capPos
    · rw [hfresh]; omega
    · intro x hx
      rw [hfresh]
      rcases List.mem_cons.mp hx with h | h
      · subst h; exact ⟨hfr2, by omega⟩
      · have := hdl_ids x h
        exact ⟨this.1, by omega⟩
    · exact List.nodup_cons.mpr ⟨fun hm => hmemFdl _ hm rfl, hdl_nd⟩
    · rw [hmapk]
      refine List.nodup_cons.mpr ⟨?_, hdlkeys_sub.nodup inv.keysND⟩
      intro hm
      exact hkc (hdlkeys_sub.subset hm)
    · rw [hput2]; exact hchPut
    · rw [hputdict, hmapp]
      exact (List.perm_append_singleton _ _).trans (hpermdel.cons _)
    · rw [hcap, List.length_cons]
      have hlen : c.dropLast.length = c.length - 1 := by
        conv_lhs => rw [hcdec]
        simp
      have hc1 : 1 ≤ c.length := by
        rcases c with _ | ⟨a, c'⟩
        · exact absurd rfl hcne
        · simp
      have hle := inv.sizeLE
      rw [hlen]
      push_cast [hc1]
      omega
  · rw [hput2]
    have := hchPut
    rw [List.cons_append, List.cons_append, List.chain'_cons] at this
    exact this.1.1
  · rw [hputdict2, dget_dset_ne _ (Ne.symm hkkL), dget_ddel_self keysnd]
  · rw [hputdict2, dget_dset_self]
  · intro k' hk1 hk2
    rw [hputdict2, dget_dset_ne _ hk1, dget_ddel_ne hk2]
  · rw [hputdict, List.length_append]
    have hdl : (ddel s.dict ((hget s.heap L).key)).length = c.dropLast.length := by
      rw [hpermdel.length_eq, List.length_map]
    have hdrop : c.dropLast.length = c.length - 1 := by
      conv_lhs => rw [hcdec]
      simp
    have hc1 : 1 ≤ c.length := by
      rcases c with _ | ⟨a, c'⟩
      · exact absurd rfl hcne
      · simp
    rw [hdl, hdrop, hsz]
    simp
    omega

end LRU

namespace LRU

theorem chainFrom_eq {h : Heap} :
    ∀ (l : List Nat) (fuel : Nat), l.length < fuel →
      (∀ y ∈ l, y ≠ tailId) →
      List.Chain' (adj h) (l ++ [tailId]) →
      chainFrom h fuel ((l ++ [tailId]).head (by simp)) = l := by
  intro l
  induction l with
  | nil =>
    intro fuel hf _ _
    obtain ⟨fuel', rfl⟩ : ∃ f', fuel = f' + 1 := ⟨fuel - 1, by omega⟩
    show chainFrom h (fuel' + 1) tailId = []
    simp [chainFrom]
  | cons a l' ih =>
    intro fuel hf hnt hch
    obtain ⟨fuel', rfl⟩ : ∃ f', fuel = f' + 1 := ⟨fuel - 1, by omega⟩
    have hat : a ≠ tailId := hnt a (List.mem_cons_self _ _)
    show chainFrom h (fuel' + 1) a = a :: l'
    rw [chainFrom, if_neg hat]
    congr 1
    rw [List.cons_append, List.chain'_cons'] at hch
    have hhead : ((l' ++ [tailId]).head? ) = some ((l' ++ [tailId]).head (by simp)) :=
      List.head?_eq_head _
    have hadj := hch.1 _ hhead
    rw [hadj.1]
    exact ih fuel' (by simpa using hf) (fun y hy => hnt y (List.mem_cons_of_mem _ hy)) hch.2

theorem invc_chain_length_lt {s : Cache} {c : List Nat} (inv : InvC s c) :
    c.length < s.fresh := by
  have hcard : c.length = c.toFinset.card := (List.toFinset_card_of_nodup inv.ndC).symm
  have hsub : c.toFinset ⊆ Finset.Ico 2 s.fresh := by
    intro x hx
    rw [List.mem_toFinset] at hx
    rw [Finset.mem_Ico]
    exact inv.idsOK x hx
  have hle := Finset.card_le_card hsub
  rw [Nat.card_Ico] at hle
  have hfr := inv.freshLB
  omega

/-- The chain read off the store from the head sentinel is exactly the
abstract recency chain of the invariant. -/
theorem chainOf_eq {s : Cache} {c : List Nat} (inv : InvC s c) : chainOf s = c := by
  have hlen := invc_chain_length_lt inv
  have hnt : ∀ y ∈ c, y ≠ tailId := by
    intro y hy e
    have := (inv.idsOK y hy).1
    rw [e, tailId] at this
    omega
  have hch : List.Chain' (adj s.heap) (c ++ [tailId]) := by
    have h := inv.links
    rw [List.cons_append, List.chain'_cons'] at h
    exact h.2
  have hhead := invc_head_next inv
  show chainFrom s.heap s.fresh (hget s.heap headId).next = c
  rw [hhead]
  exact chainFrom_eq c s.fresh hlen hnt hch

/-- Construction yields a well-formed empty cache. -/
theorem mkCache_invc {cap : Int} {s : Cache} (hmk : mkCache cap = .ok s) : InvC s [] := by
  rw [mkCache] at hmk
  split at hmk
  · exact absurd hmk (by simp)
  · next hpos =>
    cases hmk
    refine ⟨by show (0 : Int) < cap; omega, le_refl 2, by simp, List.nodup_nil,
      List.nodup_nil, ?_, List.Perm.refl _, ?_⟩
    · show List.Chain' _ [headId, tailId]
      rw [List.chain'_cons']
      refine ⟨?_, List.chain'_singleton _⟩
      intro y hy
      simp only [List.head?_cons, Option.mem_def, Option.some.injEq] at hy
      subst hy
      constructor
      · show (hget _ headId).next = tailId
        simp [hget, headId, tailId]
      · show (hget _ tailId).prev = headId
        simp [hget, headId, tailId]
    · show ((0 : Nat) : Int) ≤ cap
      omega

/-- One public operation preserves the invariant, never changes the
capacity, and grows the size only when strictly below capacity. -/
theorem step_invc {s : Cache} {c : List Nat} (inv : InvC s c) (op : Op) :
    ∃ c', InvC (step s op) c' ∧ (step s op).capacity = s.capacity ∧
      (size (step s op) = size s ∨
        (size (step s op) = size s + 1 ∧ (size s : Int) < s.capacity)) := by
  match op with
  | .get k =>
    have hstep : step s (Op.get k) = (get s k).2 := rfl
    rw [hstep]
    match hd : dget s.dict k with
    | none =>
      rw [get_miss_eq hd]
      exact ⟨c, inv, rfl, Or.inl rfl⟩
    | some i =>
      obtain ⟨u, w, hc, _, _, inv', hdict, hcap, _, _, _⟩ := get_hit_spec inv hd
      refine ⟨i :: (u ++ w), inv', hcap, Or.inl ?_⟩
      show (get s k).2.dict.length = s.dict.length
      rw [hdict]
  | .put k v =>
    have hstep : step s (Op.put k v) = put s k v := rfl
    rw [hstep]
    match hd : dget s.dict k with
    | some i =>
      obtain ⟨u, w, hc, inv', hdict, hcap, _, _, _, _, _⟩ := put_existing_spec inv hd
      refine ⟨i :: (u ++ w), inv', hcap, Or.inl ?_⟩
      show (put s k v).dict.length = s.dict.length
      rw [hdict]
    | none =>
      by_cases hful : (s.dict.length : Int) ≥ s.capacity
      · obtain ⟨hcne, inv', hcap, _, _, _, _, _, _, _, _, hlen⟩ := put_new_full_spec inv hd hful
        exact ⟨s.fresh :: c.dropLast, inv', hcap, Or.inl hlen⟩
      · have hlt : (s.dict.length : Int) < s.capacity := lt_of_not_ge hful
        obtain ⟨inv', hdict, hcap, _, _, _, _, _⟩ := put_new_nofull_spec inv hd hlt
        refine ⟨s.fresh :: c, inv', hcap, Or.inr ⟨?_, hlt⟩⟩
        show (put s k v).dict.length = s.dict.length + 1
        rw [hdict]
        simp

theorem runOps_invc {s : Cache} {c : List Nat} (inv : InvC s c) (ops : List Op) :
    ∃ c', InvC (runOps s ops) c' ∧ (runOps s ops).capacity = s.capacity := by
  induction ops generalizing s c with
  | nil => exact ⟨c, inv, rfl⟩
  | cons op ops ih =>
    obtain ⟨c1, inv1, hcap1, _⟩ := step_invc inv op
    obtain ⟨c2, inv2, hcap2⟩ := ih inv1
    exact ⟨c2, inv2, hcap2.trans hcap1⟩

/-- Every reachable state is well formed. -/
theorem reachable_invc {s : Cache} (hr : Reachable s) : ∃ c, InvC s c := by
  obtain ⟨cap, s0, ops, hmk, hrun⟩ := hr
  obtain ⟨c, inv, _⟩ := runOps_invc (mkCache_invc hmk) ops
  exact ⟨c, hrun ▸ inv⟩

end LRU

namespace LRU

theorem getLast?_map_comm (f : Nat → Int) :
    ∀ (c : List Nat), (c.map f).getLast? = c.getLast?.map f := by
  intro c
  induction c with
  | nil => rfl
  | cons a l ih =>
    cases l with
    | nil => rfl
    | cons b l' =>
      rw [List.map_cons, List.map_cons, List.getLast?_cons_cons, List.getLast?_cons_cons]
      exact ih

theorem getLast_map_eq {f : Nat → Int} {c : List Nat} (h : c ≠ []) (h2 : c.map f ≠ []) :
    (c.map f).getLast h2 = f (c.getLast h) := by
  have h1 : (c.map f).getLast? = some ((c.map f).getLast h2) :=
    List.getLast?_eq_getLast_of_ne_nil h2
  have h3 : c.getLast? = some (c.getLast h) := List.getLast?_eq_getLast_of_ne_nil h
  rw [getLast?_map_comm f c, h3] at h1
  simp only [Option.map_some', Option.some.injEq] at h1
  exact h1.symm

theorem take_append_take (A B : List Int) (n : Nat) :
    (A ++ B.take n).take n = (A ++ B).take n := by
  rw [List.take_append_eq_append_take, List.take_append_eq_append_take, List.take_take]
  congr 1
  rw [Nat.min_eq_left (Nat.sub_le n A.length)]

/-- Once the cache is full it stays full: every further operation keeps the
size at the capacity. -/
theorem runOps_size_full {s : Cache} {c : List Nat} (inv : InvC s c)
    (hfull : (size s : Int) = s.capacity) (ops : List Op) :
    (size (runOps s ops) : Int) = s.capacity := by
  induction ops generalizing s c with
  | nil => exact hfull
  | cons op ops ih =>
    obtain ⟨c1, inv1, hcap1, hsz1⟩ := step_invc inv op
    have hfull1 : (size (step s op) : Int) = (step s op).capacity := by
      rcases hsz1 with h | ⟨h, hlt⟩
      · rw [hcap1, h]; exact hfull
      · rw [hfull] at hlt; exact absurd hlt (lt_irrefl _)
    have := ih inv1 hfull1
    show (size (runOps (step s op) ops) : Int) = s.capacity
    rw [this, hcap1]

/-- Distinct-key `put`s with no intervening `get`s: the live keys are always
the most recent insertions, newest first, truncated at the capacity. -/
theorem runPuts_chainKeys :
    ∀ (kvs : List (Int × Int)) (s : Cache) (c : List Nat), InvC s c →
      (kvs.map Prod.fst).Nodup →
      (∀ p ∈ kvs, p.1 ∉ c.map (fun i => (hget s.heap i).key)) →
      chainKeys (runOps s (kvs.map (fun p => Op.put p.1 p.2)))
        = ((kvs.map Prod.fst).reverse ++ c.map (fun i => (hget s.heap i).key)).take
            s.capacity.toNat := by
  intro kvs
  induction kvs with
  | nil =>
    intro s c inv _ _
    show chainKeys s = _
    have h1 : chainKeys s = c.map (fun i => (hget s.heap i).key) := by
      show (chainOf s).map _ = _
      rw [chainOf_eq inv]
    rw [h1, List.map_nil, List.reverse_nil, List.nil_append]
    have hlen : (c.map (fun i => (hget s.heap i).key)).length ≤ s.capacity.toNat := by
      rw [List.length_map]
      exact (Int.le_toNat (le_of_lt inv.capPos)).mpr inv.sizeLE
    rw [List.take_of_length_le hlen]
  | cons p rest ih =>
    intro s c inv hnd hnotin
    rw [List.map_cons, List.nodup_cons] at hnd
    have hpk : p.1 ∉ c.map (fun i => (hget s.heap i).key) :=
      hnotin p (List.mem_cons_self _ _)
    have hd : dget s.dict p.1 = none := (invc_dget_none inv).mpr hpk
    have hcap0 : 0 < s.capacity := inv.capPos
    have hsz : s.dict.length = c.length := invc_size inv
    have hstep : runOps s ((p :: rest).map (fun q => Op.put q.1 q.2))
        = runOps (put s p.1 p.2) (rest.map (fun q => Op.put q.1 q.2)) := rfl
    rw [hstep]
    by_cases hful : (s.dict.length : Int) ≥ s.capacity
    · obtain ⟨hcne, inv', hcap, _, hkF, _, hkv, _, _, _, _, _⟩ := put_new_full_spec inv hd hful
      have hckeys : chainKeys (put s p.1 p.2)
          = p.1 :: (c.map (fun i => (hget s.heap i).key)).dropLast := by
        show (chainOf _).map _ = _
        rw [chainOf_eq inv', List.map_cons, hkF]
        congr 1
        rw [← List.map_dropLast]
        refine List.map_congr_left (fun x hx => ?_)
        have hxc : x ∈ c := (List.dropLast_sublist c).subset hx
        have hxne : x ≠ s.fresh := fun e =>
          absurd (e ▸ (inv.idsOK x hxc).2) (lt_irrefl _)
        exact (hkv x hxne).1
      have hclen : (c.length : Int) = s.capacity :=
        le_antisymm inv.sizeLE (by rw [← hsz]; exact hful)
      have hclenN : c.length = s.capacity.toNat := by
        rw [← hclen]; simp
      have hcwhole : chainKeys (put s p.1 p.2)
          = (p.1 :: c.map (fun i => (hget s.heap i).key)).take s.capacity.toNat := by
        rw [hckeys]
        have hc1 : 1 ≤ s.capacity.toNat := by
          rw [← hclenN]
          rcases c with _ | ⟨a, c'⟩
          · exact absurd rfl hcne
          · simp
        obtain ⟨m, hm⟩ : ∃ m, s.capacity.toNat = m + 1 := ⟨s.capacity.toNat - 1, by omega⟩
        rw [hm, List.take_cons]
        congr 1
        rw [List.dropLast_eq_take, List.length_map, hclenN, hm]
        simp
      have hrest : ∀ q ∈ rest, q.1 ∉ (s.fresh :: c.dropLast).map
          (fun i => (hget (put s p.1 p.2).heap i).key) := by
        intro q hq hmem
        have hqkeys : (s.fresh :: c.dropLast).map (fun i => (hget (put s p.1 p.2).heap i).key)
            = chainKeys (put s p.1 p.2) := by
          show _ = (chainOf _).map _
          rw [chainOf_eq inv']
        rw [hqkeys, hcwhole] at hmem
        have hmem2 := (List.take_sublist _ _).subset hmem
        rcases List.mem_cons.mp hmem2 with h | h
        · exact hnd.1 (h ▸ List.mem_map.mpr ⟨q, hq, rfl⟩)
        · exact hnotin q (List.mem_cons_of_mem _ hq) h
      have := ih (put s p.1 p.2) (s.fresh :: c.dropLast) inv' hnd.2 hrest
      rw [this]
      have hkeysEq : (s.fresh :: c.dropLast).map (fun i => (hget (put s p.1 p.2).heap i).key)
          = chainKeys (put s p.1 p.2) := by
        show _ = (chainOf _).map _
        rw [chainOf_eq inv']
      rw [hkeysEq, hcwhole, hcap]
      rw [take_append_take]
      rw [List.map_cons, List.reverse_cons, List.append_assoc]
      rfl
    · have hlt : (s.dict.length : Int) < s.capacity := lt_of_not_ge hful
      obtain ⟨inv', _, hcap, _, hkF, _, hkv, _⟩ := put_new_nofull_spec inv hd hlt
      have hckeys : chainKeys (put s p.1 p.2)
          = p.1 :: c.map (fun i => (hget s.heap i).key) := by
        show (chainOf _).map _ = _
        rw [chainOf_eq inv', List.map_cons, hkF]
        congr 1
        refine List.map_congr_left (fun x hx => ?_)
        have hxne : x ≠ s.fresh := fun e =>
          absurd (e ▸ (inv.idsOK x hx).2) (lt_irrefl _)
        exact (hkv x hxne).1
      have hlenle : (p.1 :: c.map (fun i => (hget s.heap i).key)).length
          ≤ s.capacity.toNat := by
        rw [List.length_cons, List.length_map]
        have hlc : (c.length : Int) < s.capacity := by rw [← hsz]; exact hlt
        refine (Int.le_toNat (le_of_lt hcap0)).mpr ?_
        push_cast
        omega
      have hcwhole : chainKeys (put s p.1 p.2)
          = (p.1 :: c.map (fun i => (hget s.heap i).key)).take s.capacity.toNat := by
        rw [hckeys, List.take_of_length_le hlenle]
      have hrest : ∀ q ∈ rest, q.1 ∉ (s.fresh :: c).map
          (fun i => (hget (put s p.1 p.2).heap i).key) := by
        intro q hq hmem
        have hqkeys : (s.fresh :: c).map (fun i => (hget (put s p.1 p.2).heap i).key)
            = chainKeys (put s p.1 p.2) := by
          show _ = (chainOf _).map _
          rw [chainOf_eq inv']
        rw [hqkeys, hckeys] at hmem
        rcases List.mem_cons.mp hmem with h | h
        · exact hnd.1 (h ▸ List.mem_map.mpr ⟨q, hq, rfl⟩)
        · exact hnotin q (List.mem_cons_of_mem _ hq) h
      have := ih (put s p.1 p.2) (s.fresh :: c) inv' hnd.2 hrest
      rw [this]
      have hkeysEq : (s.fresh :: c).map (fun i => (hget (put s p.1 p.2).heap i).key)
          = chainKeys (put s p.1 p.2) := by
        show _ = (chainOf _).map _
        rw [chainOf_eq inv']
      rw [hkeysEq, hcwhole, hcap]
      rw [take_append_take]
      rw [List.map_cons, List.reverse_cons, List.append_assoc]
      rfl

end LRU

namespace LRU

/-- C1: with capacity 2, the sequence put(1,1); put(2,2); get(1); put(3,3);
get(2); get(3); get(1) returns 1, -1, 3, 1 from the four gets; put(3,3)
evicts key 2 and not key 1 (which get(1) had promoted to most recently
used): after the first four operations the recency order is [3, 1], key 2
is absent and key 1 still stores 1. -/
theorem lru_scenario_cap2 :
    (mkCache 2).toOption.map
        (fun s0 => runGets s0 [.put 1 1, .put 2 2, .get 1, .put 3 3, .get 2, .get 3, .get 1])
      = some [1, -1, 3, 1] ∧
    (mkCache 2).toOption.map
        (fun s0 => chainKeys (runOps s0 [.put 1 1, .put 2 2, .get 1, .put 3 3]))
      = some [3, 1] ∧
    (mkCache 2).toOption.map
        (fun s0 => (lookupVal (runOps s0 [.put 1 1, .put 2 2, .get 1, .put 3 3]) 2,
                    lookupVal (runOps s0 [.put 1 1, .put 2 2, .get 1, .put 3 3]) 1))
      = some (none, some 1) := by
  refine ⟨by decide, by decide, by decide⟩

/-- C2: on every reachable full cache, `put` of an absent key evicts exactly
the key of the node before the tail sentinel (the last of the recency
chain), removing it from the key index and the chain, inserts the new key
at the most-recently-used position, and keeps the size at the capacity;
moreover for any sequence of distinct-key puts from a fresh cache the live
keys are always the newest insertions, newest first, truncated at the
capacity — so each eviction removes the earliest-inserted live key. -/
theorem put_eviction_lru (s : Cache) (k v : Int)
    (hr : Reachable s) (habs : dget s.dict k = none)
    (hfull : (size s : Int) = s.capacity) :
    chainKeys s ≠ [] ∧
    (∀ hne : chainKeys s ≠ [],
      dget (put s k v).dict ((chainKeys s).getLast hne) = none ∧
      dget (put s k v).dict k ≠ none ∧
      chainKeys (put s k v) = k :: (chainKeys s).dropLast ∧
      (size (put s k v) : Int) = s.capacity) ∧
    (∀ (cap : Int) (s0 : Cache) (kvs : List (Int × Int)),
      mkCache cap = .ok s0 → (kvs.map Prod.fst).Nodup →
      chainKeys (runOps s0 (kvs.map (fun p => Op.put p.1 p.2)))
        = ((kvs.map Prod.fst).reverse).take cap.toNat) := by
  obtain ⟨c, inv⟩ := reachable_invc hr
  have hge : (s.dict.length : Int) ≥ s.capacity := le_of_eq hfull.symm
  obtain ⟨hcne, inv', hcap, _, hkF, _, hkv, _, hdL, hdk, _, hlen⟩ :=
    put_new_full_spec inv habs hge
  have hcs : chainKeys s = c.map (fun i => (hget s.heap i).key) := by
    show (chainOf s).map _ = _
    rw [chainOf_eq inv]
  have hcksne : chainKeys s ≠ [] := by
    rw [hcs]
    simp [hcne]
  refine ⟨hcksne, ?_, ?_⟩
  · intro hne
    have hgl : (chainKeys s).getLast hne = (hget s.heap (c.getLast hcne)).key := by
      have h1 : (chainKeys s).getLast? = some ((chainKeys s).getLast hne) :=
        List.getLast?_eq_getLast_of_ne_nil hne
      have h2 : (c.map (fun i => (hget s.heap i).key)).getLast?
          = some ((chainKeys s).getLast hne) := by
        rw [← hcs]
        exact h1
      rw [getLast?_map_comm, List.getLast?_eq_getLast_of_ne_nil hcne] at h2
      simp only [Option.map_some', Option.some.injEq] at h2
      exact h2.symm
    refine ⟨?_, ?_, ?_, ?_⟩
    · rw [hgl]
      exact hdL
    · rw [hdk]
      simp
    · show (chainOf (put s k v)).map _ = _
      rw [chainOf_eq inv', List.map_cons, hkF]
      congr 1
      have h1 : c.dropLast.map (fun i => (hget (put s k v).heap i).key)
          = c.dropLast.map (fun i => (hget s.heap i).key) := by
        refine List.map_congr_left (fun x hx => ?_)
        have hxc : x ∈ c := (List.dropLast_sublist c).subset hx
        have hxne : x ≠ s.fresh := fun e =>
          absurd (e ▸ (inv.idsOK x hxc).2) (lt_irrefl _)
        exact (hkv x hxne).1
      rw [h1, List.map_dropLast, ← hcs]
    · show ((put s k v).dict.length : Int) = s.capacity
      rw [hlen]
      exact hfull
  · intro cap s0 kvs hmk hnd
    have inv0 : InvC s0 [] := mkCache_invc hmk
    have hcap0 : s0.capacity = cap := by
      rw [mkCache] at hmk
      split at hmk
      · exact absurd hmk (by simp)
      · cases hmk; rfl
    have := runPuts_chainKeys kvs s0 [] inv0 hnd (by simp)
    rw [this, hcap0]
    simp

/-- C3: on every reachable state the size lies between 0 and the capacity,
and once the size equals the capacity it stays exactly at the capacity
after every further sequence of operations. -/
theorem size_capacity_invariant (s : Cache) (hr : Reachable s) :
    (0 ≤ (size s : Int) ∧ (size s : Int) ≤ s.capacity) ∧
    ((size s : Int) = s.capacity →
      ∀ ops : List Op, (size (runOps s ops) : Int) = s.capacity) := by
  obtain ⟨c, inv⟩ := reachable_invc hr
  constructor
  · constructor
    · exact Int.ofNat_nonneg _
    · show (s.dict.length : Int) ≤ s.capacity
      rw [invc_size inv]
      exact inv.sizeLE
  · intro hfull ops
    exact runOps_size_full inv hfull ops

/-- C4: on every reachable state, `put` of a key already present updates the
stored value in place, promotes the entry to the most-recently-used
position, and changes neither the size nor the key index nor any other
stored value; concretely with capacity 2, put(1,1); put(2,2); put(1,10)
leaves size 2 with get(1) = 10, and a following put(3,3) evicts key 2. -/
theorem put_update_existing (s : Cache) (k v : Int) (i : Nat)
    (hr : Reachable s) (hi : dget s.dict k = some i) :
    size (put s k v) = size s ∧
    (put s k v).dict = s.dict ∧
    lookupVal (put s k v) k = some v ∧
    (∀ k', k' ≠ k → lookupVal (put s k v) k' = lookupVal s k') ∧
    (hget (put s k v).heap headId).next = i ∧
    chainOf (put s k v) = i :: (chainOf s).erase i ∧
    (mkCache 2).toOption.map
        (fun s0 => (size (runOps s0 [.put 1 1, .put 2 2, .put 1 10]),
                    runGets (runOps s0 [.put 1 1, .put 2 2, .put 1 10]) [.get 1],
                    chainKeys (runOps s0 [.put 1 1, .put 2 2, .put 1 10, .put 3 3])))
      = some (2, [10], [3, 1]) := by
  obtain ⟨c, inv⟩ := reachable_invc hr
  obtain ⟨u, w, hc, inv', hdict, hcap, hfresh, hkey, hval, hothers, hhead⟩ :=
    put_existing_spec inv hi
  have herase : (u ++ i :: w).erase i = u ++ w := by
    have hiu : i ∉ u := by
      have := inv.ndC
      rw [hc, List.nodup_append] at this
      exact fun hm => this.2.2 hm (List.mem_cons_self _ _)
    rw [List.erase_append_right _ hiu, List.erase_cons_head]
  refine ⟨?_, hdict, ?_, ?_, hhead, ?_, by decide⟩
  · show (put s k v).dict.length = s.dict.length
    rw [hdict]
  · show (dget (put s k v).dict k).map _ = _
    rw [hdict, hi]
    simp only [Option.map_some', Option.some.injEq]
    exact hval
  · intro k' hk'
    show (dget (put s k v).dict k').map _ = (dget s.dict k').map _
    rw [hdict]
    match hdk : dget s.dict k' with
    | none => rfl
    | some j =>
      have hj := (invc_dget_some inv).mp hdk
      have hik := (invc_dget_some inv).mp hi
      have hji : j ≠ i := by
        intro e
        rw [e, hik.1] at hj
        exact hk' hj.1.symm
      simp only [Option.map_some', Option.some.injEq]
      exact (hothers j hji).2
  · rw [chainOf_eq inv', chainOf_eq inv, hc, herase]

/-- C5: on every reachable state, a `get` hit returns the stored value,
relinks the entry right after the head sentinel (most recently used), and
changes nothing else: key index, size and every stored value are intact. -/
theorem get_hit_promotes (s : Cache) (k : Int) (i : Nat)
    (hr : Reachable s) (hi : dget s.dict k = some i) :
    (get s k).1 = (hget s.heap i).value ∧
    (hget s.heap i).key = k ∧
    (get s k).2.dict = s.dict ∧
    size (get s k).2 = size s ∧
    (∀ k', lookupVal (get s k).2 k' = lookupVal s k') ∧
    (hget (get s k).2.heap headId).next = i ∧
    chainOf (get s k).2 = i :: (chainOf s).erase i := by
  obtain ⟨c, inv⟩ := reachable_invc hr
  obtain ⟨u, w, hc, hkey, hgeq, inv', hdict, hcap, hfresh, hkv, hhead⟩ :=
    get_hit_spec inv hi
  have herase : (u ++ i :: w).erase i = u ++ w := by
    have hiu : i ∉ u := by
      have := inv.ndC
      rw [hc, List.nodup_append] at this
      exact fun hm => this.2.2 hm (List.mem_cons_self _ _)
    rw [List.erase_append_right _ hiu, List.erase_cons_head]
  refine ⟨?_, hkey, hdict, ?_, ?_, hhead, ?_⟩
  · rw [hgeq]
  · show (get s k).2.dict.length = s.dict.length
    rw [hdict]
  · intro k'
    show (dget (get s k).2.dict k').map _ = (dget s.dict k').map _
    rw [hdict]
    match hdk : dget s.dict k' with
    | none => rfl
    | some j =>
      simp only [Option.map_some', Option.some.injEq]
      exact (hkv j).2
  · rw [chainOf_eq inv', chainOf_eq inv, hc, herase]

end LRU

namespace LRU

/-- C6: on every reachable state, `get` of an absent key returns `-1` as a
plain value and leaves the state byte-for-byte unchanged. -/
theorem get_miss_no_mutation (s : Cache) (k : Int)
    (_hr : Reachable s) (hm : dget s.dict k = none) :
    (get s k).1 = -1 ∧ (get s k).2 = s ∧
    size (get s k).2 = size s ∧ chainOf (get s k).2 = chainOf s := by
  rw [get_miss_eq hm]
  exact ⟨rfl, rfl, rfl, rfl⟩

/-- C7: construction fails with the InvalidArgument error exactly when the
capacity is not positive (in particular for 0 and -1, producing no cache),
and succeeds for every positive capacity with an empty cache whose
sentinels point at each other; a capacity-1 cache behaves as a single slot:
every put of a new key leaves exactly that key live. -/
theorem construction_validation :
    (∀ cap : Int, cap ≤ 0 →
      mkCache cap = .error (.invalidArgument "Capacity must be positive")) ∧
    (∀ cap : Int, 0 < cap → ∃ s0, mkCache cap = .ok s0 ∧ size s0 = 0 ∧
      (hget s0.heap headId).next = tailId ∧ (hget s0.heap tailId).prev = headId) ∧
    mkCache 0 = .error (.invalidArgument "Capacity must be positive") ∧
    mkCache (-1) = .error (.invalidArgument "Capacity must be positive") ∧
    (∀ (s0 : Cache) (ops : List Op), mkCache 1 = .ok s0 →
      ∀ k v : Int, dget (runOps s0 ops).dict k = none →
        size (put (runOps s0 ops) k v) = 1 ∧
        dget (put (runOps s0 ops) k v).dict k = some (runOps s0 ops).fresh ∧
        (∀ k', k' ≠ k → dget (put (runOps s0 ops) k v).dict k' = none)) := by
  refine ⟨?_, ?_, rfl, rfl, ?_⟩
  · intro cap hle
    rw [mkCache, if_pos hle]
  · intro cap hpos
    rw [mkCache, if_neg (not_le.mpr hpos)]
    refine ⟨_, rfl, rfl, ?_, ?_⟩
    · show (hget [(headId, _), (tailId, _)] headId).next = tailId
      simp [hget, headId, tailId]
    · show (hget [(headId, _), (tailId, _)] tailId).prev = headId
      simp [hget, headId, tailId]
  · intro s0 ops hmk k v hd
    have inv0 : InvC s0 [] := mkCache_invc hmk
    obtain ⟨c, inv, hcapR⟩ := runOps_invc inv0 ops
    have hcap1 : (runOps s0 ops).capacity = 1 := by
      rw [hcapR]
      rw [mkCache] at hmk
      split at hmk
      · exact absurd hmk (by simp)
      · cases hmk; rfl
    have hsz : (runOps s0 ops).dict.length = c.length := invc_size inv
    by_cases hful : ((runOps s0 ops).dict.length : Int) ≥ (runOps s0 ops).capacity
    · obtain ⟨hcne, inv', hcap, _, _, _, _, _, hdL, hdk, hother, hlen⟩ :=
        put_new_full_spec inv hd hful
      have hclen : c.length = 1 := by
        have h1 : (c.length : Int) ≤ 1 := by rw [← hcap1]; exact inv.sizeLE
        have h2 : (c.length : Int) ≥ 1 := by rw [← hcap1, ← hsz]; exact hful
        omega
      obtain ⟨a, ha⟩ := List.length_eq_one.mp hclen
      subst ha
      refine ⟨?_, hdk, ?_⟩
      · show (put (runOps s0 ops) k v).dict.length = 1
        rw [hlen, hsz, hclen]
      · intro k' hk'
        by_cases hkL : k' = (hget (runOps s0 ops).heap a).key
        · rw [hkL]
          exact hdL
        · rw [hother k' hk' hkL]
          refine (invc_dget_none inv).mpr ?_
          intro hmem
          rw [List.map_singleton, List.mem_singleton] at hmem
          exact hkL hmem
    · have hlt := lt_of_not_ge hful
      obtain ⟨inv', hdict, _, _, _, _, _, _⟩ := put_new_nofull_spec inv hd hlt
      have hlen0 : (runOps s0 ops).dict.length = 0 := by
        rw [hcap1] at hlt
        omega
      have hdnil : (runOps s0 ops).dict = [] := List.length_eq_zero.mp hlen0
      refine ⟨?_, ?_, ?_⟩
      · show (put (runOps s0 ops) k v).dict.length = 1
        rw [hdict, hdnil]
        rfl
      · rw [hdict, hdnil]
        show dget [(k, (runOps s0 ops).fresh)] k = _
        simp [dget]
      · intro k' hk'
        rw [hdict, hdnil]
        show dget [(k, (runOps s0 ops).fresh)] k' = none
        simp [dget, Ne.symm hk']

/-- C8: after construction and any operation sequence, the key index and the
recency order are in lockstep: there is one chain of live node ids, without
repetition, consistently doubly linked between the two sentinels (which are
not on it), the size equals the number of key-index entries which equals
the chain length, keys are unique, and the key index maps a key to a node
exactly when that node is on the chain and carries that key. -/
theorem index_order_lockstep (s : Cache) (hr : Reachable s) :
    ∃ c : List Nat,
      c.Nodup ∧ headId ∉ c ∧ tailId ∉ c ∧
      List.Chain' (adj s.heap) (headId :: c ++ [tailId]) ∧
      size s = s.dict.length ∧
      s.dict.length = c.length ∧
      (s.dict.map Prod.fst).Nodup ∧
      (c.map (fun i => (hget s.heap i).key)).Nodup ∧
      (∀ (k : Int) (i : Nat),
        dget s.dict k = some i ↔ ((hget s.heap i).key = k ∧ i ∈ c)) ∧
      chainOf s = c := by
  obtain ⟨c, inv⟩ := reachable_invc hr
  refine ⟨c, inv.ndC, ?_, ?_, inv.links, rfl, invc_size inv,
    invc_dict_keys_nodup inv, inv.keysND, fun k i => invc_dget_some inv, chainOf_eq inv⟩
  · intro hm
    have := (inv.idsOK _ hm).1
    rw [headId] at this
    omega
  · intro hm
    have := (inv.idsOK _ hm).1
    rw [tailId] at this
    omega

/-- C9: the not-found sentinel is ambiguous: after put(5, -1) on a fresh
capacity-1 cache the key 5 is present in the key index, yet get(5) returns
-1 — the same value get returns for a key that was never inserted. -/
theorem minus_one_ambiguity :
    (mkCache 1).toOption.map (fun s0 => dget (put s0 5 (-1)).dict 5) = some (some 2) ∧
    (mkCache 1).toOption.map (fun s0 => (get (put s0 5 (-1)) 5).1) = some (-1) ∧
    (mkCache 1).toOption.map (fun s0 => (get s0 7).1) = some (-1) := by
  refine ⟨by decide, by decide, by decide⟩

/-- C10: read-after-write round trip: on every reachable state, `put(k, v)`
immediately followed by `get(k)` returns `v`. -/
theorem put_get_roundtrip (s : Cache) (k v : Int) (hr : Reachable s) :
    (get (put s k v) k).1 = v := by
  obtain ⟨c, inv⟩ := reachable_invc hr
  match hd : dget s.dict k with
  | some i =>
    obtain ⟨u, w, hc, inv', hdict, _, _, hkey, hval, _, _⟩ := put_existing_spec inv hd
    have hd2 : dget (put s k v).dict k = some i := by
      rw [hdict]
      exact hd
    obtain ⟨u2, w2, _, _, hgeq, _, _, _, _, hkv2, _⟩ := get_hit_spec inv' hd2
    rw [hgeq]
    exact hval
  | none =>
    by_cases hful : ((s.dict.length : Int) ≥ s.capacity)
    · obtain ⟨hcne, inv', _, _, hkF, hvF, _, _, _, hdk, _, _⟩ := put_new_full_spec inv hd hful
      obtain ⟨u2, w2, _, _, hgeq, _, _, _, _, hkv2, _⟩ := get_hit_spec inv' hdk
      rw [hgeq]
      exact hvF
    · have hlt := lt_of_not_ge hful
      obtain ⟨inv', hdict, _, _, hkF, hvF, _, _⟩ := put_new_nofull_spec inv hd hlt
      have hkd : k ∉ s.dict.map Prod.fst := dget_eq_none_iff.mp hd
      have hd2 : dget (put s k v).dict k = some s.fresh := by
        rw [hdict, ← dset_eq_append _ hkd, dget_dset_self]
      obtain ⟨u2, w2, _, _, hgeq, _, _, _, _, hkv2, _⟩ := get_hit_spec inv' hd2
      rw [hgeq]
      exact hvF

end LRU

namespace LRU

/-- Witness for C2: putting key 3 into the full capacity-2 cache holding
keys 2 (MRU) and 1 (LRU) evicts key 1 and keeps the size at 2. -/
theorem put_eviction_lru_witness :
    chainKeys (runOps cache2 [Op.put 1 1, Op.put 2 2]) ≠ [] ∧
    chainKeys (put (runOps cache2 [Op.put 1 1, Op.put 2 2]) 3 3)
      = 3 :: (chainKeys (runOps cache2 [Op.put 1 1, Op.put 2 2])).dropLast ∧
    (size (put (runOps cache2 [Op.put 1 1, Op.put 2 2]) 3 3) : Int) = 2 := by
  have h := put_eviction_lru (runOps cache2 [Op.put 1 1, Op.put 2 2]) 3 3
    ⟨2, cache2, [Op.put 1 1, Op.put 2 2], rfl, rfl⟩ (by decide) (by decide)
  refine ⟨h.1, (h.2.1 h.1).2.2.1, ?_⟩
  exact ((h.2.1 h.1).2.2.2).trans (by decide)

/-- Witness for C3 on a full capacity-2 cache. -/
theorem size_capacity_invariant_witness :
    (0 ≤ (size (runOps cache2 [Op.put 1 1, Op.put 2 2]) : Int) ∧
     (size (runOps cache2 [Op.put 1 1, Op.put 2 2]) : Int)
        ≤ (runOps cache2 [Op.put 1 1, Op.put 2 2]).capacity) ∧
    (size (runOps (runOps cache2 [Op.put 1 1, Op.put 2 2]) [Op.get 1, Op.put 9 9]) : Int)
      = (runOps cache2 [Op.put 1 1, Op.put 2 2]).capacity := by
  have h := size_capacity_invariant (runOps cache2 [Op.put 1 1, Op.put 2 2])
    ⟨2, cache2, [Op.put 1 1, Op.put 2 2], rfl, rfl⟩
  exact ⟨h.1, h.2 (by decide) [Op.get 1, Op.put 9 9]⟩

/-- Witness for C4: updating key 1 in place on a capacity-2 cache. -/
theorem put_update_existing_witness :
    size (put (runOps cache2 [Op.put 1 1, Op.put 2 2]) 1 10)
      = size (runOps cache2 [Op.put 1 1, Op.put 2 2]) ∧
    lookupVal (put (runOps cache2 [Op.put 1 1, Op.put 2 2]) 1 10) 1 = some 10 ∧
    chainOf (put (runOps cache2 [Op.put 1 1, Op.put 2 2]) 1 10)
      = 2 :: (chainOf (runOps cache2 [Op.put 1 1, Op.put 2 2])).erase 2 := by
  have h := put_update_existing (runOps cache2 [Op.put 1 1, Op.put 2 2]) 1 10 2
    ⟨2, cache2, [Op.put 1 1, Op.put 2 2], rfl, rfl⟩ (by decide)
  exact ⟨h.1, h.2.2.1, h.2.2.2.2.2.1⟩

/-- Witness for C5: a hit on key 1 promotes its node (id 2) to the front. -/
theorem get_hit_promotes_witness :
    (get (runOps cache2 [Op.put 1 1, Op.put 2 2]) 1).1
      = (hget (runOps cache2 [Op.put 1 1, Op.put 2 2]).heap 2).value ∧
    (get (runOps cache2 [Op.put 1 1, Op.put 2 2]) 1).2.dict
      = (runOps cache2 [Op.put 1 1, Op.put 2 2]).dict ∧
    (hget (get (runOps cache2 [Op.put 1 1, Op.put 2 2]) 1).2.heap headId).next = 2 := by
  have h := get_hit_promotes (runOps cache2 [Op.put 1 1, Op.put 2 2]) 1 2
    ⟨2, cache2, [Op.put 1 1, Op.put 2 2], rfl, rfl⟩ (by decide)
  exact ⟨h.1, h.2.2.1, h.2.2.2.2.2.1⟩

/-- Witness for C6: a miss on key 9 returns -1 and leaves the state as is. -/
theorem get_miss_no_mutation_witness :
    (get (runOps cache2 [Op.put 1 1, Op.put 2 2]) 9).1 = -1 ∧
    (get (runOps cache2 [Op.put 1 1, Op.put 2 2]) 9).2
      = runOps cache2 [Op.put 1 1, Op.put 2 2] := by
  have h := get_miss_no_mutation (runOps cache2 [Op.put 1 1, Op.put 2 2]) 9
    ⟨2, cache2, [Op.put 1 1, Op.put 2 2], rfl, rfl⟩ (by decide)
  exact ⟨h.1, h.2.1⟩

/-- Witness for C7: a negative capacity fails, and on a capacity-1 cache
holding key 7 a put of key 8 leaves exactly key 8 live. -/
theorem construction_validation_witness :
    mkCache (-3) = .error (.invalidArgument "Capacity must be positive") ∧
    size (put (runOps cache1 [Op.put 7 7]) 8 8) = 1 ∧
    dget (put (runOps cache1 [Op.put 7 7]) 8 8).dict 8
      = some (runOps cache1 [Op.put 7 7]).fresh ∧
    dget (put (runOps cache1 [Op.put 7 7]) 8 8).dict 7 = none := by
  have h := construction_validation
  refine ⟨h.1 (-3) (by decide), ?_, ?_, ?_⟩
  · exact (h.2.2.2.2 cache1 [Op.put 7 7] rfl 8 8 (by decide)).1
  · exact (h.2.2.2.2 cache1 [Op.put 7 7] rfl 8 8 (by decide)).2.1
  · exact (h.2.2.2.2 cache1 [Op.put 7 7] rfl 8 8 (by decide)).2.2 7 (by decide)

/-- Witness for C8 on a concrete two-entry cache. -/
theorem index_order_lockstep_witness :
    (chainOf (runOps cache2 [Op.put 1 1, Op.put 2 2])).Nodup ∧
    List.Chain' (adj (runOps cache2 [Op.put 1 1, Op.put 2 2]).heap)
      (headId :: chainOf (runOps cache2 [Op.put 1 1, Op.put 2 2]) ++ [tailId]) ∧
    (runOps cache2 [Op.put 1 1, Op.put 2 2]).dict.length
      = (chainOf (runOps cache2 [Op.put 1 1, Op.put 2 2])).length := by
  obtain ⟨c, hnd, hh, ht, hch, hsz, hlen, hknd, hcknd, hiff, hceq⟩ :=
    index_order_lockstep (runOps cache2 [Op.put 1 1, Op.put 2 2])
      ⟨2, cache2, [Op.put 1 1, Op.put 2 2], rfl, rfl⟩
  rw [hceq]
  exact ⟨hnd, hch, hlen⟩

/-- Witness for C10: put 5 then get 5 returns the value just written. -/
theorem put_get_roundtrip_witness :
    (get (put (runOps cache2 [Op.put 1 1, Op.put 2 2]) 5 55) 5).1 = 55 :=
  put_get_roundtrip (runOps cache2 [Op.put 1 1, Op.put 2 2]) 5 55
    ⟨2, cache2, [Op.put 1 1, Op.put 2 2], rfl, rfl⟩

end LRU
